import Mathlib

/-!
Verification of the batch-graph construction in `src/mol/dimenet/loader.py`.

The development shallowly embeds the collate pipeline of `AtomsCollate.__call__`:
per-structure cutoff adjacency (lines 137-142), the optimized block-diagonal
merge `_bmat_fast` (lines 68-80), the global edge enumeration, the triplet
derivation and the auxiliary index arrays (lines 144-173), together with the
input-record mutation performed by `_restore_shape` and the augmentation loop
(lines 83-86 and 121-130).

Modelling conventions:
* Coordinates are rationals (`Vec3`); the float positions of the source are
  modelled as exact numbers.  The cutoff test `D <= cutoff` on the real
  Euclidean distance is embedded as the equivalent rational test
  `0 <= cutoff ∧ dist2 <= cutoff^2` (`distLE`); the equivalence with the
  real statement `Real.sqrt dist2 <= cutoff` is proved in `distLE_iff_real`.
* Sparse CSR matrices are embedded as their `(data, indices, indptr)` triple
  plus the column count (`Csr`), exactly the representation `_bmat_fast`
  manipulates.  `scipy.sparse.csr_matrix((data, indices, indptr))` without a
  `shape` argument infers `ncols = max(indices) + 1` and raises when `indices`
  is empty; `_bmat_fast` is therefore `Option`-valued.
* The subtraction `adj -= sp.eye(n, dtype=np.bool)` of line 142 is a scipy
  boolean-CSR subtraction: the sparsetools kernel stores an output entry iff
  the C value `a - b` is nonzero, and numpy bools are wrapped so that any
  nonzero char counts as True.  On 0/1 values this is the symmetric
  difference of the patterns, so the dense adjacency entry is
  `(D i j <= cutoff) XOR (i = j)` (`adjDense`).
* Python exceptions (reshape errors, shape-mismatch errors in the identity
  subtraction, the KeyError of the field concatenation, the ValueError of the
  shape inference) are modelled by `Option`: the call returns `none` instead
  of raising, and never returns a partial batch.
* The ambient random draws of `_get_rand_norm_3d` (np.random) and
  `rand_rotation_matrix` (imported from the external `mylib`, not part of
  this repository) are passed to the embedded call as explicit arguments
  `deltaDraws` and `rotDraws`; `possibleDeltas` records which delta draws
  `np.random.multivariate_normal(0, eye(3)*m, size=n)` can actually return
  (anything of the right shape for `m ≠ 0`, exactly zero for `m = 0`).
* The input dicts are embedded as records (`Example`) with the two mandatory
  fields `R` (flat position array) and `Z` plus an optional scalar label `U0`
  standing for the per-structure label columns, and the `R_orig` field that
  the call itself adds.  `__call__` mutates its inputs, so the embedded call
  returns the final state of the examples alongside the produced batch.
-/

namespace DimenetLoader

unseal Rat.add Rat.mul Rat.inv Rat.sub

/-- A 3D point with exact (rational) coordinates. -/
abbrev Vec3 : Type := ℚ × ℚ × ℚ

/-- Squared Euclidean distance of two points; the source compares
`np.linalg.norm(R[i] - R[j])` with the cutoff, i.e. the square root of this. -/
def dist2 (p q : Vec3) : ℚ :=
  (p.1 - q.1) ^ 2 + (p.2.1 - q.2.1) ^ 2 + (p.2.2 - q.2.2) ^ 2

/-- The cutoff predicate `D[i,j] <= cutoff` of line 141, stated on rationals:
for the nonnegative real `sqrt dist2`, `sqrt dist2 <= c` holds iff
`0 <= c` and `dist2 <= c^2` (see `distLE_iff_real`). -/
def distLE (p q : Vec3) (c : ℚ) : Bool :=
  decide (0 ≤ c ∧ dist2 p q ≤ c ^ 2)

/-- Dense per-structure adjacency after line 142
(`csr_matrix(D <= cutoff) - eye(n)`): the boolean CSR subtraction keeps an
entry iff exactly one operand has a true entry there (symmetric difference). -/
def adjDense (R : List Vec3) (c : ℚ) (i j : ℕ) : Bool :=
  xor (distLE (R.getD i 0) (R.getD j 0) c) (decide (i = j))

/-! ## CSR matrices -/

/-- A scipy CSR matrix: the `(data, indices, indptr)` triple plus the column
count of the shape. -/
structure Csr (α : Type) where
  data : List α
  indices : List ℕ
  indptr : List ℕ
  ncols : ℕ
deriving DecidableEq, Repr

/-- `shape[0]`: scipy infers the row count as `len(indptr) - 1`. -/
def Csr.nrows {α : Type} (c : Csr α) : ℕ := c.indptr.length - 1

/-- `nnz`: scipy reports `indptr[-1]` stored entries. -/
def Csr.nnz {α : Type} (c : Csr α) : ℕ := c.indptr.getLastD 0

/-- Build the CSR triple of a matrix given as a list of rows of
`(value, column)` entries (columns listed in increasing order per row). -/
def csrFromRows {α : Type} (rows : List (List (α × ℕ))) (nc : ℕ) : Csr α :=
  ⟨(rows.map (fun r => r.map (·.1))).flatten,
   (rows.map (fun r => r.map (·.2))).flatten,
   (rows.map (·.length)).scanl (· + ·) 0,
   nc⟩

/-- Per-row column lists of a dense boolean `n × n` matrix, row-major with
increasing columns: the nonzero structure `sp.csr_matrix(dense)` stores. -/
def denseRows (n : ℕ) (A : ℕ → ℕ → Bool) : List (List ℕ) :=
  (List.range n).map (fun i => (List.range n).filter (fun j => A i j))

/-- `sp.csr_matrix(dense)` for a dense boolean matrix: all stored values are
`True`, the pattern is the row-major nonzero structure. -/
def csrOfDenseB (n : ℕ) (A : ℕ → ℕ → Bool) : Csr Bool :=
  csrFromRows ((denseRows n A).map (fun r => r.map (fun j => (true, j)))) n

/-- Decode a CSR triple back into rows: row `r` holds the `(data, column)`
entries in positions `indptr[r] .. indptr[r+1]`. -/
def Csr.toRows {α : Type} (c : Csr α) : List (List (α × ℕ)) :=
  (c.indptr.zip c.indptr.tail).map
    (fun se => ((c.data.zip c.indices).drop se.1).take (se.2 - se.1))

/-- Row-major `(row, col)` enumeration of the stored entries whose value is
nonzero, starting at row index `r`: the core of `csr.nonzero()`. -/
def rowsToPairs : ℕ → List (List (Bool × ℕ)) → List (ℕ × ℕ)
  | _, [] => []
  | r, row :: rest => (row.filter (·.1)).map (fun e => (r, e.2)) ++ rowsToPairs (r + 1) rest

/-- `adj_matrix.nonzero()` (line 148): row-major `(row, col)` pairs of the
stored true entries. -/
def Csr.nonzero (c : Csr Bool) : List (ℕ × ℕ) := rowsToPairs 0 c.toRows

/-- `.tocoo().row` of a matrix given by its rows: each row index repeated
once per stored entry of that row. -/
def cooRowsFrom : ℕ → List (List (ℕ × ℕ)) → List ℕ
  | _, [] => []
  | r, row :: rest => List.replicate row.length r ++ cooRowsFrom (r + 1) rest

/-- `np.repeat(xs, ns)` with one repetition count per element. -/
def repNat (xs ns : List ℕ) : List ℕ :=
  (xs.zip ns).flatMap (fun p => List.replicate p.2 p.1)

/-! ## `_bmat_fast` (lines 68-80) -/

/-- `new_indices` of `_bmat_fast`: each block's `indices` shifted by the
cumulative `shape[0]` of the previous blocks (line 71-74). -/
def bmatIndices {α : Type} : ℕ → List (Csr α) → List ℕ
  | _, [] => []
  | off, m :: rest => m.indices.map (· + off) ++ bmatIndices (off + m.nrows) rest

/-- `new_indptr` of `_bmat_fast`: the first block keeps its whole `indptr`,
later blocks drop the leading `0` (`indptr[i >= 1:]`), shifted by the
cumulative `nnz` of the previous blocks (lines 76-79). -/
def bmatIndptr {α : Type} : Bool → ℕ → List (Csr α) → List ℕ
  | _, _, [] => []
  | first, off, m :: rest =>
      (if first then m.indptr else m.indptr.tail).map (· + off) ++
        bmatIndptr false (off + m.nnz) rest

/-- `_bmat_fast(mats)`: concatenate the data, the offset indices and the
offset indptrs, then build `sp.csr_matrix((data, indices, indptr))` without a
`shape` argument: scipy infers `ncols = max(indices) + 1` and raises
`ValueError` (here `none`) when `indices` is empty. -/
def _bmat_fast {α : Type} (mats : List (Csr α)) : Option (Csr α) :=
  match bmatIndices 0 mats with
  | [] => none
  | _ :: _ =>
      some ⟨(mats.map (·.data)).flatten, bmatIndices 0 mats,
            bmatIndptr true 0 mats, (bmatIndices 0 mats).foldr max 0 + 1⟩

/-! ## The batch record and the input records -/

/-- The flat output record of `__call__` (the fields of `AtomsBatch` that the
collate function produces; `U0` stands for the optional per-structure scalar
labels, concatenated with `np.hstack`). -/
structure Batch where
  batch_seg : List ℕ
  R : List Vec3
  R_orig : List Vec3
  Z : List ℕ
  idnb_i : List ℕ
  idnb_j : List ℕ
  id3dnb_i : List ℕ
  id3dnb_j : List ℕ
  id3dnb_k : List ℕ
  id_expand_kj : List ℕ
  id_reduce_ji : List ℕ
  U0 : Option (List ℚ)
deriving DecidableEq, Repr

/-- One input record (one structure): the flat position array `R`, the atomic
numbers `Z`, an optional scalar label `U0`, and the `R_orig` slot that
`__call__` itself fills in (absent on fresh inputs). -/
structure Example where
  R : List ℚ
  Z : List ℕ
  R_orig : Option (List ℚ) := none
  U0 : Option ℚ := none
deriving DecidableEq, Repr

/-! ## Collate core: lines 144-179, from the merged matrix to the batch -/

/-- Steps of `__call__` from `_bmat_fast` on: global edge enumeration,
triplet expansion, degenerate-triplet filter, auxiliary index arrays and
segment labels (lines 144-173). -/
def collateCore (adjs : List (Csr Bool)) (Rcat Rorigcat : List Vec3)
    (Zcat : List ℕ) (U0cat : Option (List ℚ)) (Ns : List ℕ) : Option Batch :=
  (_bmat_fast adjs).map (fun adj =>
    -- line 145-147: same pattern as `adj`, data = arange(nnz)
    let atomids : Csr ℕ := ⟨List.range adj.nnz, adj.indices, adj.indptr, adj.ncols⟩
    -- line 148
    let edges := adj.nonzero
    let edgeid_to_target := edges.map (·.1)
    let edgeid_to_source := edges.map (·.2)
    let adjRows := adj.toRows
    let numRows := atomids.toRows
    -- `adj_matrix[edgeid_to_source]` / `atomids_to_edgeid[edgeid_to_source, :]`:
    -- fancy row indexing stacks the selected rows in order
    let selAdj := edgeid_to_source.map (fun j => adjRows.getD j [])
    let selNum := edgeid_to_source.map (fun j => numRows.getD j [])
    -- line 155: `.sum(1).A1` on the boolean rows
    let ntriplets := selAdj.map (fun row => (row.map (fun e => if e.1 then 1 else 0)).sum)
    -- lines 156-158
    let id3ynb_i := repNat edgeid_to_target ntriplets
    let id3ynb_j := repNat edgeid_to_source ntriplets
    let id3ynb_k := (selAdj.map (fun row => (row.filter (·.1)).map (·.2))).flatten
    -- lines 168 and 170: `.data` and `.tocoo().row` of the selected edge-id rows
    let expandPre := (selNum.map (fun row => row.map (·.1))).flatten
    let reducePre := cooRowsFrom 0 selNum
    -- line 161: `(id3ynb_i != id3ynb_k).nonzero()`
    let id3_y_to_d := (List.range id3ynb_i.length).filter
        (fun p => decide (¬ id3ynb_i.getD p 0 = id3ynb_k.getD p 0))
    { batch_seg := repNat (List.range Ns.length) Ns,
      R := Rcat,
      R_orig := Rorigcat,
      Z := Zcat,
      idnb_i := edgeid_to_target,
      idnb_j := edgeid_to_source,
      id3dnb_i := id3_y_to_d.map (fun p => id3ynb_i.getD p 0),
      id3dnb_j := id3_y_to_d.map (fun p => id3ynb_j.getD p 0),
      id3dnb_k := id3_y_to_d.map (fun p => id3ynb_k.getD p 0),
      id_expand_kj := id3_y_to_d.map (fun p => expandPre.getD p 0),
      id_reduce_ji := id3_y_to_d.map (fun p => reducePre.getD p 0),
      U0 := U0cat })

/-! ## The full call: lines 121-179 -/

/-- `reshape(-1, 3)` of a flat array: fails unless the length is a multiple
of 3. -/
def reshape3 (xs : List ℚ) : Option (List Vec3) :=
  match xs with
  | [] => some []
  | x :: y :: z :: rest => (reshape3 rest).map (fun l => (x, y, z) :: l)
  | _ :: _ => none

/-- Flatten a shaped `(n, 3)` array back to its flat storage. -/
def flatten3 (l : List Vec3) : List ℚ :=
  l.flatMap (fun v => [v.1, v.2.1, v.2.2])

/-- A 3x3 matrix given by rows. -/
abbrev Mat3 : Type := Vec3 × Vec3 × Vec3

/-- The identity rotation (default draw when `rotate` is off). -/
def idMat3 : Mat3 := ((1, 0, 0), (0, 1, 0), (0, 0, 1))

/-- Row-vector times matrix, `v @ M` with `M` given by rows. -/
def matApply (v : Vec3) (M : Mat3) : Vec3 :=
  (v.1 * M.1.1 + v.2.1 * M.2.1.1 + v.2.2 * M.2.2.1,
   v.1 * M.1.2.1 + v.2.1 * M.2.1.2.1 + v.2.2 * M.2.2.2.1,
   v.1 * M.1.2.2 + v.2.1 * M.2.1.2.2 + v.2.2 * M.2.2.2.2)

/-- Divide a vector componentwise by a rational. -/
def vdiv (v : Vec3) (n : ℚ) : Vec3 := (v.1 / n, v.2.1 / n, v.2.2 / n)

/-- `coords.mean(axis=0)`. -/
def centroid (coords : List Vec3) : Vec3 :=
  vdiv (coords.foldl (· + ·) 0) (coords.length : ℚ)

/-- `_random_rotate` (lines 95-99) at a given rotation draw `M`:
`(coords - center).dot(M)` (the center is not added back). -/
def _random_rotate (coords : List Vec3) (M : Mat3) : List Vec3 :=
  coords.map (fun v => matApply (v - centroid coords) M)

/-- The augmentation body of lines 124-130 for one structure, at explicit
random draws: reshape (from `_restore_shape`), optional rotation, add the
sampled deltas; mutates the record, setting `R_orig` to the pre-delta
positions and `R` to the perturbed ones.  Returns the mutated record together
with the shaped pre-delta and post-delta positions.  numpy addition of
mismatching `(n, 3)` shapes raises, hence the length check on the draw. -/
def augmentExample (rotate : Bool) (M : Mat3) (delta : List Vec3) (e : Example) :
    Option (Example × List Vec3 × List Vec3) := do
  let R0 ← reshape3 e.R
  let R1 := if rotate then _random_rotate R0 M else R0
  if delta.length = R1.length then
    let R2 := List.zipWith (· + ·) R1 delta
    some ({ e with R := flatten3 R2, R_orig := some (flatten3 R1) }, R1, R2)
  else none

/-- The field concatenation of lines 132-135 for the optional label: the key
set is read off the first example, and a key present on the first but missing
on another raises `KeyError` (`none`).  A key missing on the first example is
simply not concatenated. -/
def concatU0 (examples : List Example) : Option (Option (List ℚ)) :=
  match examples with
  | [] => none
  | e0 :: _ =>
    match e0.U0 with
    | none => some none
    | some _ => (examples.mapM (fun (e : Example) => e.U0)).map (fun l => some l)

/-- `AtomsCollate.__call__` (lines 121-179) with the random draws passed
explicitly.  Returns the mutated input records together with the batch, or
`none` where the source raises.  The `r != len(Z)` check mirrors the shape
check of the sparse subtraction `- sp.eye(len(e.Z))` on line 142. -/
def AtomsCollate.call (cutoff : ℚ) (rotate : Bool) (rotDraws : List Mat3)
    (deltaDraws : List (List Vec3)) (examples : List Example) :
    Option (List Example × Batch) :=
  match examples with
  | [] => none  -- `examples[0].keys()` raises IndexError
  | _ :: _ => do
    let aug ← examples.enum.mapM (fun be =>
      augmentExample rotate (rotDraws.getD be.1 idMat3) (deltaDraws.getD be.1 []) be.2)
    let examples' := aug.map (·.1)
    let rotated := aug.map (·.2.1)
    let augmented := aug.map (·.2.2)
    let U0cat ← concatU0 examples'
    if (augmented.zip examples').all (fun p => p.1.length = p.2.Z.length) then
      let adjs := augmented.map (fun Rb => csrOfDenseB Rb.length (adjDense Rb cutoff))
      let Ns := examples'.map (fun e => e.Z.length)
      (collateCore adjs augmented.flatten rotated.flatten
          ((examples'.map (fun e => e.Z)).flatten) U0cat Ns).map
        (fun b => (examples', b))
    else none

/-- The batch produced by a call (`emptyBatch` when the call fails). -/
def emptyBatch : Batch := ⟨[], [], [], [], [], [], [], [], [], [], [], none⟩

/-- Project the batch out of a call result. -/
def outOf (o : Option (List Example × Batch)) : Batch :=
  (o.map (·.2)).getD emptyBatch

/-! ## Spec-side notions used to state the claims -/

/-- The per-structure graph builder: lines 137-142 followed by the row-major
nonzero enumeration; the edge list of one structure on its own. -/
def structEdges (R : List Vec3) (c : ℚ) : List (ℕ × ℕ) :=
  (csrOfDenseB R.length (adjDense R c)).nonzero

/-- The per-structure adjacency matrices the call hands to `_bmat_fast`
(lines 139-144): one thresholded-minus-identity matrix per structure. -/
def structAdjs (Rbs : List (List Vec3)) (c : ℚ) : List (Csr Bool) :=
  Rbs.map (fun Rb => csrOfDenseB Rb.length (adjDense Rb c))

/-- Claim C1's notion: the local rank of edge `e` among the edges sharing its
source atom, i.e. its position within the source's outgoing-edge group. -/
def localRankBySource (edges : List (ℕ × ℕ)) (e : ℕ) : ℕ :=
  (edges.take e).countP (fun p => p.2 = (edges.getD e (0, 0)).2)

/-- Which per-structure delta draws `_get_rand_norm_3d` (lines 89-92,
`np.random.multivariate_normal(zeros(3), eye(3) * m, size=n)`) can return:
one `(n_b, 3)` array per structure; for `m = 0` the covariance is zero and
the sample is exactly the zero mean. -/
def possibleDeltas (m : ℚ) (ns : List ℕ) (ds : List (List Vec3)) : Prop :=
  ds.length = ns.length ∧
  (∀ b, b < ds.length → (ds.getD b []).length = ns.getD b 0) ∧
  (m = 0 → ∀ d ∈ ds, ∀ v ∈ d, v = (0 : Vec3))

/-- Real-coordinate squared distance (for stating claims whose inputs have
irrational coordinates). -/
def dist2R (p q : ℝ × ℝ × ℝ) : ℝ :=
  (p.1 - q.1) ^ 2 + (p.2.1 - q.2.1) ^ 2 + (p.2.2 - q.2.2) ^ 2

/-- The adjacency predicate of lines 140-142 over real coordinates:
within-cutoff XOR on-diagonal (see the module comment on the boolean
subtraction). -/
def adjDenseR (R : List (ℝ × ℝ × ℝ)) (c : ℝ) (i j : ℕ) : Prop :=
  Xor' (Real.sqrt (dist2R (R.getD i 0) (R.getD j 0)) ≤ c) (i = j)

/-- Offset-concatenation of blocks of rows: each block's rows are appended
after the previous blocks' rows with all its column indices shifted by the
number of rows already emitted (blocks are square). -/
def catRows {α : Type} : ℕ → List (List (List (α × ℕ))) → List (List (α × ℕ))
  | _, [] => []
  | off, rs :: rest =>
      rs.map (fun row => row.map (fun e => (e.1, e.2 + off))) ++ catRows (off + rs.length) rest

/-- Claim C5's reference block-diagonal construction: the sparse matrix whose
rows are the blocks' rows stacked in order, block `b`'s row and column
indices offset by the cumulative size of blocks `0..b-1`, with shape
(sum of sizes) x (sum of sizes). -/
def blockDiagRef {α : Type} (mats : List (Csr α)) : Csr α :=
  csrFromRows (catRows 0 (mats.map Csr.toRows)) ((mats.map Csr.nrows).sum)

/-- Rows with their entries' global storage positions: row `r`'s entries are
numbered consecutively starting from the total number of entries of the
previous rows (`acc`); this is `toRows` of a CSR whose data is
`arange(nnz)`. -/
def numberRows {α : Type} : ℕ → List (List (α × ℕ)) → List (List (ℕ × ℕ))
  | _, [] => []
  | acc, r :: rest =>
      (List.range' acc r.length).zip (r.map (·.2)) :: numberRows (acc + r.length) rest

/-- One candidate triplet row before the degeneracy filter: target `i`,
middle atom `j`, outer neighbour `k`, the storage position `pos` of the
entry (j, k) (= the inner edge's global id), and the index `src` of the
originating outer edge in the edge enumeration. -/
structure Trip where
  i : ℕ
  j : ℕ
  k : ℕ
  pos : ℕ
  src : ℕ
deriving DecidableEq, Repr

/-- All candidate triplets of a merged adjacency (given by its rows): for
each edge (i, j) in enumeration order, one entry per stored neighbour of
row j. -/
def tripsOf (MR : List (List (Bool × ℕ))) : List Trip :=
  (rowsToPairs 0 MR).enum.flatMap (fun te =>
    ((numberRows 0 MR).getD te.2.2 []).map (fun pk =>
      ⟨te.2.1, te.2.2, pk.2, pk.1, te.1⟩))

/-- The triplets surviving the `k != i` filter of line 161. -/
def survivors (MR : List (List (Bool × ℕ))) : List Trip :=
  (tripsOf MR).filter (fun y => decide (¬ y.i = y.k))

/-- The number of atoms a record declares through its flat position array. -/
def natoms (e : Example) : ℕ := e.R.length / 3

/-- A default record (used only as a `getD` fallback). -/
def emptyExample : Example := { R := [], Z := [] }

/-! ## Concrete inputs used by the counterexamples and witnesses -/

/-- Three collinear atoms at x = 0, 1, 2. -/
def chainEx : Example := { R := [0, 0, 0, 1, 0, 0, 2, 0, 0], Z := [1, 1, 1] }

/-- Zero perturbation draw for three atoms. -/
def zeros3 : List Vec3 := [(0, 0, 0), (0, 0, 0), (0, 0, 0)]

/-- The chain batch: cutoff 3/2 connects only neighbouring atoms. -/
def chainCall : Option (List Example × Batch) :=
  AtomsCollate.call (3 / 2) false [] [zeros3] [chainEx]

/-- A single atom at the origin. -/
def loopEx : Example := { R := [0, 0, 0], Z := [1] }

/-- The single-atom batch at negative cutoff. -/
def loopCall : Option (List Example × Batch) :=
  AtomsCollate.call (-1) false [] [[(0, 0, 0)]] [loopEx]

/-- A structure with zero atoms. -/
def emptyEx : Example := { R := [], Z := [] }

/-- Two atoms at distance 1. -/
def pairEx : Example := { R := [0, 0, 0, 1, 0, 0], Z := [1, 1] }

/-- A batch whose first structure has zero atoms. -/
def c7Call : Option (List Example × Batch) :=
  AtomsCollate.call 5 false [] [[], [(0, 0, 0), (0, 0, 0)]] [emptyEx, pairEx]

/-- Adjacency of two coincident atoms: both off-diagonal entries. -/
def pairAdjCsr : Csr Bool := csrOfDenseB 2 (fun i j => decide (¬ i = j))

/-- Adjacency of an isolated atom: the empty 1 x 1 matrix. -/
def emptyOneCsr : Csr Bool := csrOfDenseB 1 (fun _ _ => false)

/-- The vertices of the equilateral triangle with side 1 (real coordinates;
the third vertex needs the square root of 3). -/
noncomputable def triR : List (ℝ × ℝ × ℝ) :=
  [(0, 0, 0), (1, 0, 0), (1 / 2, Real.sqrt 3 / 2, 0)]

/-- The boolean adjacency matrix of the triangle at cutoff 2: every
off-diagonal entry. -/
def triAdj (i j : ℕ) : Bool := decide (¬ i = j)

/-- The triangle batch, assembled from the thresholded adjacency of the
triangle (its positions are irrational, so the per-structure matrix is the
handover point; `c6_equilateral_triangle` proves the matrix is the
cutoff-2 adjacency of the triangle). -/
def triBatch : Batch :=
  (collateCore [csrOfDenseB 3 triAdj] [] [] [1, 1, 1] none [3]).getD emptyBatch

/-- The mutated chain record the call returns: `R_orig` has been added. -/
def c10ex : Example :=
  { R := [0, 0, 0, 1, 0, 0, 2, 0, 0], Z := [1, 1, 1],
    R_orig := some [0, 0, 0, 1, 0, 0, 2, 0, 0], U0 := none }

/-- The batch the chain call produces. -/
def chainBatch : Batch :=
  { batch_seg := [0, 0, 0], R := [(0, 0, 0), (1, 0, 0), (2, 0, 0)],
    R_orig := [(0, 0, 0), (1, 0, 0), (2, 0, 0)], Z := [1, 1, 1],
    idnb_i := [0, 1, 1, 2], idnb_j := [1, 0, 2, 1],
    id3dnb_i := [0, 2], id3dnb_j := [1, 1], id3dnb_k := [2, 0],
    id_expand_kj := [2, 1], id_reduce_ji := [0, 3], U0 := none }

/-- Two distinct perturbation draws for the two-atom structure. -/
def d9a : List (List Vec3) := [[(0, 0, 0), (0, 0, 0)]]

/-- See `d9a`. -/
def d9b : List (List Vec3) := [[(1, 0, 0), (0, 0, 0)]]

/-- `distLE` agrees with the real cutoff predicate on the distance itself. -/
theorem distLE_iff_real (p q : Vec3) (c : ℚ) :
    distLE p q c = true ↔
      Real.sqrt ((dist2 p q : ℚ) : ℝ) ≤ ((c : ℚ) : ℝ) := by
  rw [distLE, decide_eq_true_iff]
  constructor
  · rintro ⟨h0, h2⟩
    have h2' : ((dist2 p q : ℚ) : ℝ) ≤ ((c : ℚ) : ℝ) ^ 2 := by exact_mod_cast h2
    have h0' : (0 : ℝ) ≤ ((c : ℚ) : ℝ) := by exact_mod_cast h0
    calc Real.sqrt ((dist2 p q : ℚ) : ℝ) ≤ Real.sqrt (((c : ℚ) : ℝ) ^ 2) :=
          Real.sqrt_le_sqrt h2'
      _ = ((c : ℚ) : ℝ) := by rw [Real.sqrt_sq h0']
  · intro h
    have hd : (0 : ℝ) ≤ ((dist2 p q : ℚ) : ℝ) := by
      have : (0 : ℚ) ≤ dist2 p q := by unfold dist2; positivity
      exact_mod_cast this
    have h0' : (0 : ℝ) ≤ ((c : ℚ) : ℝ) := le_trans (Real.sqrt_nonneg _) h
    have h2' : ((dist2 p q : ℚ) : ℝ) ≤ ((c : ℚ) : ℝ) ^ 2 := by
      have := Real.sq_sqrt hd
      calc ((dist2 p q : ℚ) : ℝ) = Real.sqrt ((dist2 p q : ℚ) : ℝ) ^ 2 := this.symm
        _ ≤ ((c : ℚ) : ℝ) ^ 2 := by
            apply pow_le_pow_left₀ (Real.sqrt_nonneg _) h
    constructor
    · exact_mod_cast h0'
    · exact_mod_cast h2'

/-! ## Structural lemmas about the CSR embedding -/

theorem zip_proj_flatten {α : Type} (rows : List (List (α × ℕ))) :
    ((rows.map (fun r => r.map (·.1))).flatten).zip
        ((rows.map (fun r => r.map (·.2))).flatten) = rows.flatten := by
  induction rows with
  | nil => simp
  | cons r rest ih =>
      simp only [List.map_cons, List.flatten_cons]
      rw [List.zip_append (by simp), ih, List.zip_map']
      simp

theorem scanl_add_getLastD (ls : List ℕ) (s d : ℕ) :
    (ls.scanl (· + ·) s).getLastD d = s + ls.sum := by
  induction ls generalizing s d with
  | nil => simp [List.scanl]
  | cons l ls ih =>
      rw [List.scanl_cons, List.singleton_append, List.getLastD_cons, ih]
      simp [Nat.add_assoc]

theorem toRows_aux {α : Type} (rows : List (List (α × ℕ))) (P : List (α × ℕ)) :
    (((rows.map List.length).scanl (· + ·) P.length).zip
        ((rows.map List.length).scanl (· + ·) P.length).tail).map
      (fun se => (((P ++ rows.flatten).drop se.1).take (se.2 - se.1))) = rows := by
  induction rows generalizing P with
  | nil => simp [List.scanl]
  | cons r rest ih =>
      have hlen : P.length + r.length = (P ++ r).length := (List.length_append _ _).symm
      rw [List.map_cons, List.scanl_cons, List.singleton_append, hlen]
      have hL : ∃ M, (rest.map List.length).scanl (· + ·) (P ++ r).length
          = (P ++ r).length :: M := by
        cases rest with
        | nil => exact ⟨[], rfl⟩
        | cons a t =>
            exact ⟨(t.map List.length).scanl (· + ·) ((P ++ r).length + a.length),
              by rw [List.map_cons, List.scanl_cons, List.singleton_append]⟩
      obtain ⟨M, hM⟩ := hL
      rw [hM, List.tail_cons, List.zip_cons_cons, List.map_cons]
      have hflat : P ++ (r :: rest).flatten = (P ++ r) ++ rest.flatten := by
        rw [List.flatten_cons, List.append_assoc]
      congr 1
      · rw [hflat, List.length_append, Nat.add_sub_cancel_left,
          List.append_assoc, List.drop_left, List.take_left]
      · have hMt : M = ((rest.map List.length).scanl (· + ·) (P ++ r).length).tail := by
          rw [hM, List.tail_cons]
        calc (((P ++ r).length :: M).zip M).map
              (fun se => (((P ++ (r :: rest).flatten).drop se.1).take (se.2 - se.1)))
            = (((rest.map List.length).scanl (· + ·) (P ++ r).length).zip
                ((rest.map List.length).scanl (· + ·) (P ++ r).length).tail).map
              (fun se => ((((P ++ r) ++ rest.flatten).drop se.1).take (se.2 - se.1))) := by
              rw [← hM, hMt, hflat]
          _ = rest := ih (P ++ r)

theorem toRows_csrFromRows {α : Type} (rows : List (List (α × ℕ))) (nc : ℕ) :
    (csrFromRows rows nc).toRows = rows := by
  unfold csrFromRows Csr.toRows
  simp only
  rw [zip_proj_flatten]
  have h := toRows_aux rows []
  simpa using h

theorem nnz_csrFromRows {α : Type} (rows : List (List (α × ℕ))) (nc : ℕ) :
    (csrFromRows rows nc).nnz = rows.flatten.length := by
  unfold csrFromRows Csr.nnz
  simp only
  rw [scanl_add_getLastD]
  simp [List.length_flatten]

theorem nrows_csrFromRows {α : Type} (rows : List (List (α × ℕ))) (nc : ℕ) :
    (csrFromRows rows nc).nrows = rows.length := by
  unfold csrFromRows Csr.nrows
  simp [List.length_scanl]

theorem numberRows_map_fst_flatten {α : Type} (rows : List (List (α × ℕ))) :
    ∀ acc, ((numberRows acc rows).map (fun r => r.map (·.1))).flatten
      = List.range' acc ((rows.map List.length).sum) := by
  induction rows with
  | nil => intro acc; simp [numberRows]
  | cons r rest ih =>
      intro acc
      rw [numberRows, List.map_cons, List.flatten_cons, ih (acc + r.length)]
      have hfst : ((List.range' acc r.length).zip (r.map (·.2))).map (·.1)
          = List.range' acc r.length := by
        apply List.map_fst_zip
        simp
      rw [hfst, List.map_cons, List.sum_cons, Nat.add_comm r.length]
      exact List.range'_append_1 acc r.length _

theorem numberRows_map_snd {α : Type} (rows : List (List (α × ℕ))) :
    ∀ acc, (numberRows acc rows).map (fun r => r.map (·.2))
      = rows.map (fun r => r.map (·.2)) := by
  induction rows with
  | nil => intro acc; simp [numberRows]
  | cons r rest ih =>
      intro acc
      rw [numberRows, List.map_cons, List.map_cons, ih (acc + r.length)]
      congr 1
      apply List.map_snd_zip
      simp

theorem numberRows_map_length {α : Type} (rows : List (List (α × ℕ))) :
    ∀ acc, (numberRows acc rows).map List.length = rows.map List.length := by
  induction rows with
  | nil => intro acc; simp [numberRows]
  | cons r rest ih =>
      intro acc
      rw [numberRows, List.map_cons, List.map_cons, ih (acc + r.length)]
      congr 1
      simp

/-- The `atomids_to_edgeid` matrix of lines 145-147: same pattern as the
adjacency, data replaced by `arange(nnz)`; its rows are the adjacency's rows
with each entry's global storage position as the value. -/
theorem toRows_arange {α : Type} (rows : List (List (α × ℕ))) (nc k : ℕ) :
    (Csr.mk (List.range (csrFromRows rows nc).nnz) (csrFromRows rows nc).indices
      (csrFromRows rows nc).indptr k).toRows = numberRows 0 rows := by
  have hdata : List.range (csrFromRows rows nc).nnz
      = ((numberRows 0 rows).map (fun r => r.map (·.1))).flatten := by
    rw [nnz_csrFromRows, numberRows_map_fst_flatten rows 0, List.range_eq_range']
    congr 1
    simp [List.length_flatten]
  have hidx : (csrFromRows rows nc).indices
      = ((numberRows 0 rows).map (fun r => r.map (·.2))).flatten := by
    rw [numberRows_map_snd rows 0]; rfl
  have hptr : (csrFromRows rows nc).indptr
      = ((numberRows 0 rows).map List.length).scanl (· + ·) 0 := by
    rw [numberRows_map_length rows 0]; rfl
  have h : (Csr.mk (List.range (csrFromRows rows nc).nnz) (csrFromRows rows nc).indices
      (csrFromRows rows nc).indptr k) = csrFromRows (numberRows 0 rows) k := by
    rw [hdata, hidx, hptr]; rfl
  rw [h, toRows_csrFromRows]

theorem scanl_add_head_tail (ls : List ℕ) (s : ℕ) :
    ls.scanl (· + ·) s = s :: (ls.scanl (· + ·) s).tail := by
  cases ls <;> simp [List.scanl]

theorem scanl_add_map_shift (ls : List ℕ) (s t : ℕ) :
    (ls.scanl (· + ·) s).map (· + t) = ls.scanl (· + ·) (s + t) := by
  induction ls generalizing s with
  | nil => simp [List.scanl]
  | cons l ls ih =>
      rw [List.scanl_cons, List.scanl_cons, List.singleton_append, List.singleton_append,
        List.map_cons, ih]
      congr 2
      omega

theorem scanl_add_tail_map_shift (ls : List ℕ) (s t : ℕ) :
    ((ls.scanl (· + ·) s).tail).map (· + t) = (ls.scanl (· + ·) (s + t)).tail := by
  rw [← scanl_add_map_shift]
  cases hs : ls.scanl (· + ·) s <;> simp

theorem scanl_add_append (xs ys : List ℕ) (s : ℕ) :
    (xs ++ ys).scanl (· + ·) s
      = xs.scanl (· + ·) s ++ (ys.scanl (· + ·) (s + xs.sum)).tail := by
  induction xs generalizing s with
  | nil =>
      simp only [List.nil_append, List.scanl, List.sum_nil, Nat.add_zero,
        List.singleton_append]
      exact scanl_add_head_tail ys s
  | cons x xs ih =>
      rw [List.cons_append, List.scanl_cons, List.scanl_cons, List.singleton_append,
        List.singleton_append, ih, List.sum_cons, List.cons_append]
      have h : s + x + xs.sum = s + (x + xs.sum) := by omega
      rw [h]

theorem bmatIndices_eq {α : Type} (rss : List (List (List (α × ℕ))))
    (g : List (List (α × ℕ)) → ℕ) :
    ∀ off, bmatIndices off (rss.map (fun rs => csrFromRows rs (g rs)))
      = ((catRows off rss).map (fun r => r.map (·.2))).flatten := by
  induction rss with
  | nil => intro off; simp [bmatIndices, catRows]
  | cons rs rest ih =>
      intro off
      rw [List.map_cons, bmatIndices, catRows, nrows_csrFromRows, ih (off + rs.length),
        List.map_append, List.flatten_append]
      congr 1
      show ((rs.map (fun r => r.map (·.2))).flatten).map (· + off) = _
      rw [List.map_flatten, List.map_map, List.map_map]
      congr 1
      apply List.map_congr_left
      intro row _
      simp [List.map_map, Function.comp]

theorem bmatData_eq {α : Type} (rss : List (List (List (α × ℕ))))
    (g : List (List (α × ℕ)) → ℕ) :
    ∀ off, ((rss.map (fun rs => csrFromRows rs (g rs))).map (·.data)).flatten
      = ((catRows off rss).map (fun r => r.map (·.1))).flatten := by
  induction rss with
  | nil => intro off; simp [catRows]
  | cons rs rest ih =>
      intro off
      rw [List.map_cons, List.map_cons, List.flatten_cons, catRows, ih (off + rs.length),
        List.map_append, List.flatten_append]
      congr 1
      show (rs.map (fun r => r.map (·.1))).flatten = _
      rw [List.map_map]
      congr 1
      apply List.map_congr_left
      intro row _
      simp [List.map_map, Function.comp]

theorem bmatIndptr_false_eq {α : Type} (rss : List (List (List (α × ℕ))))
    (g : List (List (α × ℕ)) → ℕ) :
    ∀ off noff, bmatIndptr false noff (rss.map (fun rs => csrFromRows rs (g rs)))
      = (((catRows off rss).map List.length).scanl (· + ·) noff).tail := by
  induction rss with
  | nil => intro off noff; simp [bmatIndptr, catRows, List.scanl]
  | cons rs rest ih =>
      intro off noff
      rw [List.map_cons, bmatIndptr, catRows]
      have hnnz : (csrFromRows rs (g rs)).nnz = (rs.map List.length).sum := by
        rw [nnz_csrFromRows, List.length_flatten]
      have htail : ((csrFromRows rs (g rs)).indptr.tail).map (· + noff)
          = ((rs.map List.length).scanl (· + ·) noff).tail := by
        show (((rs.map List.length).scanl (· + ·) 0).tail).map (· + noff) = _
        rw [scanl_add_tail_map_shift, Nat.zero_add]
      rw [if_neg (by simp), htail, hnnz, ih (off + rs.length) (noff + (rs.map List.length).sum),
        List.map_append, scanl_add_append]
      have hlens : (rs.map (fun row => row.map (fun e => (e.1, e.2 + off)))).map List.length
          = rs.map List.length := by simp
      rw [hlens]
      rw [scanl_add_head_tail (rs.map List.length) noff, List.cons_append, List.tail_cons]
      rfl

theorem bmatIndptr_true_eq {α : Type} (rss : List (List (List (α × ℕ))))
    (g : List (List (α × ℕ)) → ℕ) (hne : rss ≠ []) :
    bmatIndptr true 0 (rss.map (fun rs => csrFromRows rs (g rs)))
      = ((catRows 0 rss).map List.length).scanl (· + ·) 0 := by
  cases rss with
  | nil => exact absurd rfl hne
  | cons rs rest =>
      rw [List.map_cons, bmatIndptr, catRows, if_pos rfl]
      have hnnz : (csrFromRows rs (g rs)).nnz = (rs.map List.length).sum := by
        rw [nnz_csrFromRows, List.length_flatten]
      have hid : ((csrFromRows rs (g rs)).indptr).map (· + 0)
          = (rs.map List.length).scanl (· + ·) 0 := by
        show (((rs.map List.length).scanl (· + ·) 0)).map (· + 0) = _
        rw [scanl_add_map_shift, Nat.add_zero]
      rw [hid, hnnz, bmatIndptr_false_eq rest g (0 + rs.length) (0 + (rs.map List.length).sum),
        List.map_append, scanl_add_append, Nat.zero_add]
      have hlens : (rs.map (fun row => row.map (fun e => (e.1, e.2 + 0)))).map List.length
          = rs.map List.length := by simp
      rw [hlens, Nat.zero_add, Nat.zero_add]

/-- `_bmat_fast` on blocks given by their rows: when some block has a stored
entry, the merge succeeds and its triple is exactly the triple of the
offset-concatenated rows, with the inferred column count. -/
theorem bmat_fast_eq {α : Type} (rss : List (List (List (α × ℕ))))
    (g : List (List (α × ℕ)) → ℕ) (hne : rss ≠ [])
    (hx : bmatIndices 0 (rss.map (fun rs => csrFromRows rs (g rs))) ≠ []) :
    _bmat_fast (rss.map (fun rs => csrFromRows rs (g rs)))
      = some ⟨(csrFromRows (catRows 0 rss) 0).data, (csrFromRows (catRows 0 rss) 0).indices,
              (csrFromRows (catRows 0 rss) 0).indptr,
              (bmatIndices 0 (rss.map (fun rs => csrFromRows rs (g rs)))).foldr max 0 + 1⟩ := by
  unfold _bmat_fast
  split
  · next h => exact absurd h hx
  · next h =>
      congr 1
      have hd : ((rss.map (fun rs => csrFromRows rs (g rs))).map (·.data)).flatten
          = (csrFromRows (catRows 0 rss) 0).data := by
        rw [bmatData_eq rss g 0]; rfl
      have hi : bmatIndices 0 (rss.map (fun rs => csrFromRows rs (g rs)))
          = (csrFromRows (catRows 0 rss) 0).indices := by
        rw [bmatIndices_eq rss g 0]; rfl
      have hp : bmatIndptr true 0 (rss.map (fun rs => csrFromRows rs (g rs)))
          = (csrFromRows (catRows 0 rss) 0).indptr := by
        rw [bmatIndptr_true_eq rss g hne]; rfl
      rw [hd, hi, hp]

theorem enumFrom_flatMap_snd {α β : Type} (l : List α) (f : α → List β) :
    ∀ n, (l.enumFrom n).flatMap (fun p => f p.2) = l.flatMap f := by
  induction l with
  | nil => intro n; rfl
  | cons a t ih => intro n; simp only [List.enumFrom, List.flatMap_cons, ih]

theorem enum_flatMap_snd {α β : Type} (l : List α) (f : α → List β) :
    l.enum.flatMap (fun p => f p.2) = l.flatMap f :=
  enumFrom_flatMap_snd l f 0

theorem repNat_map_map {α : Type} (l : List α) (f g : α → ℕ) :
    repNat (l.map f) (l.map g) = l.flatMap (fun x => List.replicate (g x) (f x)) := by
  unfold repNat
  rw [List.zip_map', List.flatMap_map]

theorem cooRowsFrom_eq (rows : List (List (ℕ × ℕ))) :
    ∀ n, cooRowsFrom n rows
      = (rows.enumFrom n).flatMap (fun p => List.replicate p.2.length p.1) := by
  induction rows with
  | nil => intro n; rfl
  | cons r t ih => intro n; simp only [cooRowsFrom, List.enumFrom, List.flatMap_cons, ih]

theorem getD_map {α β : Type} (l : List α) (f : α → β) (p : ℕ) (d : α) (d2 : β)
    (hp : p < l.length) : (l.map f).getD p d2 = f (l.getD p d) := by
  rw [List.getD_eq_getElem?_getD, List.getD_eq_getElem?_getD, List.getElem?_map,
    List.getElem?_eq_getElem hp]
  rfl

theorem filter_range_getD {β γ : Type} (Y : List β) (q : β → Bool) (f : β → γ)
    (d : β) (d2 : γ) :
    ((List.range Y.length).filter (fun p => q (Y.getD p d))).map
        (fun p => (Y.map f).getD p d2) = (Y.filter q).map f := by
  induction Y with
  | nil => rfl
  | cons y ys ih =>
      rw [List.length_cons, List.range_succ_eq_map, List.filter_cons]
      have hpred : (fun p => q ((y :: ys).getD p d)) ∘ (· + 1)
          = fun p => q (ys.getD p d) := by
        funext p
        simp [List.getD_cons_succ]
      have hmap : (fun p => ((y :: ys).map f).getD p d2) ∘ (· + 1)
          = fun p => (ys.map f).getD p d2 := by
        funext p
        simp [List.getD_cons_succ]
      by_cases hq : q y
      · rw [if_pos (by simpa using hq), List.map_cons, List.filter_map, hpred,
          List.map_map, hmap, List.filter_cons, if_pos hq, List.map_cons, ih]
        simp [List.getD_cons_zero]
      · rw [if_neg (by simpa using hq), List.filter_map, hpred,
          List.map_map, hmap, List.filter_cons, if_neg hq, ih]

theorem mem_rowsToPairs {MR : List (List (Bool × ℕ))} :
    ∀ {r : ℕ} {pr : ℕ × ℕ}, pr ∈ rowsToPairs r MR →
      ∃ ridx, ridx < MR.length ∧ ∃ e ∈ MR.getD ridx [], e.1 = true ∧ pr = (r + ridx, e.2) := by
  induction MR with
  | nil => intro r pr h; cases h
  | cons row rest ih =>
      intro r pr h
      rw [rowsToPairs] at h
      rcases List.mem_append.1 h with h1 | h2
      · obtain ⟨e, he, hpr⟩ := List.mem_map.1 h1
        have hf := List.mem_filter.1 he
        refine ⟨0, by simp, e, by simpa using hf.1, by simpa using hf.2, ?_⟩
        rw [← hpr, Nat.add_zero]
      · obtain ⟨ridx, hlt, e, he, htrue, hpr⟩ := ih h2
        refine ⟨ridx + 1, by simpa using hlt, e, by simpa using he, htrue, ?_⟩
        rw [hpr, Nat.add_assoc, Nat.add_comm 1 ridx]

theorem rowsToPairs_mem_of {MR : List (List (Bool × ℕ))} :
    ∀ {r ridx : ℕ} {e : Bool × ℕ}, ridx < MR.length → e ∈ MR.getD ridx [] →
      e.1 = true → (r + ridx, e.2) ∈ rowsToPairs r MR := by
  induction MR with
  | nil => intro r ridx e h; simp at h
  | cons row rest ih =>
      intro r ridx e hlt he htrue
      rw [rowsToPairs]
      apply List.mem_append.2
      match ridx with
      | 0 =>
          left
          rw [Nat.add_zero]
          exact List.mem_map.2 ⟨e, List.mem_filter.2 ⟨by simpa using he, by simpa using htrue⟩, rfl⟩
      | ridx' + 1 =>
          right
          have := @ih (r + 1) ridx' e (by simpa using hlt)
            (by simpa using he) htrue
          have harith : r + 1 + ridx' = r + (ridx' + 1) := by omega
          rw [harith] at this
          exact this

/-- The storage position recorded by `numberRows` addresses, in the row-major
nonzero enumeration, exactly the entry it annotates (all values true). -/
theorem numberRows_spec {MR : List (List (Bool × ℕ))}
    (ht : ∀ row ∈ MR, ∀ e ∈ row, e.1 = true) :
    ∀ (pre : List (ℕ × ℕ)) (r j : ℕ),
      ∀ pk ∈ (numberRows pre.length MR).getD j [],
        pk.1 < (pre ++ rowsToPairs r MR).length ∧
        (pre ++ rowsToPairs r MR).getD pk.1 (0, 0) = (r + j, pk.2) := by
  induction MR with
  | nil =>
      intro pre r j pk hpk
      simp [numberRows] at hpk
  | cons row rest ih =>
      intro pre r j pk hpk
      have hrow : row.filter (·.1) = row :=
        List.filter_eq_self.2 (fun e he => ht row (by simp) e he)
      have htrest : ∀ rw ∈ rest, ∀ e ∈ rw, e.1 = true :=
        fun rw hrw e he => ht rw (by simp [hrw]) e he
      rw [rowsToPairs, hrow]
      match j with
      | 0 =>
          rw [numberRows, List.getD_cons_zero] at hpk
          obtain ⟨idx, hidx, hpk⟩ := List.mem_iff_getElem.1 hpk
          have hidxrow : idx < row.length := by
            simpa using hidx
          have h1 : pk.1 = pre.length + idx := by
            rw [← hpk]
            simp [List.getElem_zip, List.getElem_range']
          have h2 : pk.2 = row[idx].2 := by
            rw [← hpk]
            simp [List.getElem_zip]
          constructor
          · rw [h1]
            have hlen2 : (pre ++ (row.map (fun e => (r, e.2)) ++ rowsToPairs (r + 1) rest)).length
                = pre.length + (row.length + (rowsToPairs (r + 1) rest).length) := by
              simp
            rw [hlen2]
            omega
          · rw [h1, List.getD_append_right _ _ _ _ (by omega), Nat.add_sub_cancel_left]
            rw [List.getD_append _ _ _ _ (by simpa using hidxrow)]
            rw [getD_map _ _ _ (true, 0) _ hidxrow, List.getD_eq_getElem _ _ hidxrow, h2,
              Nat.add_zero]
      | j' + 1 =>
          rw [numberRows, List.getD_cons_succ] at hpk
          have hlen : pre.length + row.length
              = (pre ++ row.map (fun e => (r, e.2))).length := by
            simp
          rw [hlen] at hpk
          have := ih htrest (pre ++ row.map (fun e => (r, e.2))) (r + 1) j' pk hpk
          rw [List.append_assoc] at this
          refine ⟨this.1, ?_⟩
          rw [this.2, Nat.add_assoc, Nat.add_comm 1 j']

theorem mem_enum_getD {α : Type} {l : List α} {te : ℕ × α} (h : te ∈ l.enum) (d : α) :
    te.1 < l.length ∧ l.getD te.1 d = te.2 := by
  obtain ⟨idx, hidx, hte⟩ := List.mem_iff_getElem.1 h
  have hlt : idx < l.length := by simpa using hidx
  have hte2 : te = (idx, l[idx]) := by rw [← hte]; simp
  rw [hte2]
  exact ⟨hlt, by rw [List.getD_eq_getElem _ _ hlt]⟩

theorem numberRows_getD_length {α : Type} (rows : List (List (α × ℕ))) :
    ∀ acc j, ((numberRows acc rows).getD j []).length = (rows.getD j []).length := by
  induction rows with
  | nil => intro acc j; simp [numberRows]
  | cons r t ih =>
      intro acc j
      match j with
      | 0 => simp [numberRows]
      | j' + 1 => simp only [numberRows, List.getD_cons_succ, ih]

theorem numberRows_getD_snd {α : Type} (rows : List (List (α × ℕ))) :
    ∀ acc j, ((numberRows acc rows).getD j []).map (·.2)
      = (rows.getD j []).map (·.2) := by
  induction rows with
  | nil => intro acc j; simp [numberRows]
  | cons r t ih =>
      intro acc j
      match j with
      | 0 =>
          simp only [numberRows, List.getD_cons_zero]
          apply List.map_snd_zip
          simp
      | j' + 1 => simp only [numberRows, List.getD_cons_succ, ih]

theorem catRows_allTrue (rss : List (List (List (Bool × ℕ))))
    (ht : ∀ rs ∈ rss, ∀ row ∈ rs, ∀ e ∈ row, e.1 = true) :
    ∀ off, ∀ row ∈ catRows (α := Bool) off rss, ∀ e ∈ row, e.1 = true := by
  induction rss with
  | nil => intro off row h; cases h
  | cons rs rest ih =>
      intro off row hrow e he
      rw [catRows] at hrow
      rcases List.mem_append.1 hrow with h1 | h2
      · obtain ⟨row0, hrow0, hmap⟩ := List.mem_map.1 h1
        rw [← hmap] at he
        obtain ⟨e0, he0, hmape⟩ := List.mem_map.1 he
        rw [← hmape]
        exact ht rs (by simp) row0 hrow0 e0 he0
      · exact ih (fun rs' hrs' => ht rs' (by simp [hrs'])) (off + rs.length) row h2 e he

theorem allTrue_row_sum (row : List (Bool × ℕ)) (ht : ∀ e ∈ row, e.1 = true) :
    (row.map (fun e => if e.1 then 1 else 0)).sum = row.length := by
  induction row with
  | nil => rfl
  | cons e t ih =>
      rw [List.map_cons, List.sum_cons, if_pos (by simpa using ht e (by simp)),
        ih (fun x hx => ht x (by simp [hx])), List.length_cons]
      omega

theorem tripsOf_map_i (MR : List (List (Bool × ℕ))) :
    (tripsOf MR).map (·.i) = (rowsToPairs 0 MR).flatMap
      (fun e => List.replicate ((MR.getD e.2 []).length) e.1) := by
  unfold tripsOf
  rw [List.map_flatMap]
  have hfun : (fun te : ℕ × (ℕ × ℕ) =>
      (((numberRows 0 MR).getD te.2.2 []).map
        (fun pk => (⟨te.2.1, te.2.2, pk.2, pk.1, te.1⟩ : Trip))).map (·.i))
    = (fun te : ℕ × (ℕ × ℕ) =>
        List.replicate ((MR.getD te.2.2 []).length) te.2.1) := by
    funext te
    rw [List.map_map]
    have hc : ((fun x : Trip => x.i) ∘
        fun pk : ℕ × ℕ => (⟨te.2.1, te.2.2, pk.2, pk.1, te.1⟩ : Trip))
        = fun _ => te.2.1 := rfl
    rw [hc, List.map_const', numberRows_getD_length]
  rw [hfun]
  exact enum_flatMap_snd (rowsToPairs 0 MR)
    (fun e => List.replicate ((MR.getD e.2 []).length) e.1)

theorem tripsOf_map_j (MR : List (List (Bool × ℕ))) :
    (tripsOf MR).map (·.j) = (rowsToPairs 0 MR).flatMap
      (fun e => List.replicate ((MR.getD e.2 []).length) e.2) := by
  unfold tripsOf
  rw [List.map_flatMap]
  have hfun : (fun te : ℕ × (ℕ × ℕ) =>
      (((numberRows 0 MR).getD te.2.2 []).map
        (fun pk => (⟨te.2.1, te.2.2, pk.2, pk.1, te.1⟩ : Trip))).map (·.j))
    = (fun te : ℕ × (ℕ × ℕ) =>
        List.replicate ((MR.getD te.2.2 []).length) te.2.2) := by
    funext te
    rw [List.map_map]
    have hc : ((fun x : Trip => x.j) ∘
        fun pk : ℕ × ℕ => (⟨te.2.1, te.2.2, pk.2, pk.1, te.1⟩ : Trip))
        = fun _ => te.2.2 := rfl
    rw [hc, List.map_const', numberRows_getD_length]
  rw [hfun]
  exact enum_flatMap_snd (rowsToPairs 0 MR)
    (fun e => List.replicate ((MR.getD e.2 []).length) e.2)

theorem tripsOf_map_k (MR : List (List (Bool × ℕ))) :
    (tripsOf MR).map (·.k) = (rowsToPairs 0 MR).flatMap
      (fun e => (MR.getD e.2 []).map (·.2)) := by
  unfold tripsOf
  rw [List.map_flatMap]
  have hfun : (fun te : ℕ × (ℕ × ℕ) =>
      (((numberRows 0 MR).getD te.2.2 []).map
        (fun pk => (⟨te.2.1, te.2.2, pk.2, pk.1, te.1⟩ : Trip))).map (·.k))
    = (fun te : ℕ × (ℕ × ℕ) => (MR.getD te.2.2 []).map (·.2)) := by
    funext te
    rw [List.map_map]
    exact numberRows_getD_snd MR 0 te.2.2
  rw [hfun]
  exact enum_flatMap_snd (rowsToPairs 0 MR) (fun e => (MR.getD e.2 []).map (·.2))

theorem tripsOf_map_pos (MR : List (List (Bool × ℕ))) :
    (tripsOf MR).map (·.pos) = (rowsToPairs 0 MR).flatMap
      (fun e => ((numberRows 0 MR).getD e.2 []).map (·.1)) := by
  unfold tripsOf
  rw [List.map_flatMap]
  have hfun : (fun te : ℕ × (ℕ × ℕ) =>
      (((numberRows 0 MR).getD te.2.2 []).map
        (fun pk => (⟨te.2.1, te.2.2, pk.2, pk.1, te.1⟩ : Trip))).map (·.pos))
    = (fun te : ℕ × (ℕ × ℕ) => ((numberRows 0 MR).getD te.2.2 []).map (·.1)) := by
    funext te
    rw [List.map_map]
    rfl
  rw [hfun]
  exact enum_flatMap_snd (rowsToPairs 0 MR)
    (fun e => ((numberRows 0 MR).getD e.2 []).map (·.1))

theorem tripsOf_map_src (MR : List (List (Bool × ℕ))) :
    (tripsOf MR).map (·.src) = cooRowsFrom 0
      ((rowsToPairs 0 MR).map (fun e => (numberRows 0 MR).getD e.2 [])) := by
  unfold tripsOf
  rw [List.map_flatMap, cooRowsFrom_eq, ← List.enum, List.enum_map, List.flatMap_map]
  congr 1
  funext te
  rw [List.map_map]
  have hc : ((fun x : Trip => x.src) ∘
      fun pk : ℕ × ℕ => (⟨te.2.1, te.2.2, pk.2, pk.1, te.1⟩ : Trip))
      = fun _ => te.1 := rfl
  rw [hc, List.map_const']
  rfl

/-- Every candidate triplet addresses two genuine edges: its `src` component
is the enumeration index of its outer edge (i, j), and its `pos` component is
the enumeration index of its inner edge (j, k). -/
theorem mem_tripsOf {MR : List (List (Bool × ℕ))}
    (ht : ∀ row ∈ MR, ∀ e ∈ row, e.1 = true) {y : Trip} (hy : y ∈ tripsOf MR) :
    y.src < (rowsToPairs 0 MR).length ∧
    (rowsToPairs 0 MR).getD y.src (0, 0) = (y.i, y.j) ∧
    y.pos < (rowsToPairs 0 MR).length ∧
    (rowsToPairs 0 MR).getD y.pos (0, 0) = (y.j, y.k) := by
  unfold tripsOf at hy
  obtain ⟨te, hte, hy2⟩ := List.mem_flatMap.1 hy
  obtain ⟨pk, hpk, hy3⟩ := List.mem_map.1 hy2
  have hsrc := mem_enum_getD hte (0, 0)
  have hnum := numberRows_spec ht [] 0 te.2.2 pk (by simpa using hpk)
  rw [← hy3]
  refine ⟨hsrc.1, ?_, by simpa using hnum.1, by simpa using hnum.2⟩
  rw [hsrc.2]

/-- The heart of the development: when the per-structure matrices are given
by their rows (with every stored value true), the batch produced by
`collateCore` enumerates the merged rows' entries as its edge arrays, and its
five triplet arrays are the parallel projections of the surviving triplets
`survivors (catRows 0 rss)`. -/
theorem collateCore_spec (rss : List (List (List (Bool × ℕ))))
    (g : List (List (Bool × ℕ)) → ℕ) (Rcat Rorigcat : List Vec3) (Zcat : List ℕ)
    (U0cat : Option (List ℚ)) (Ns : List ℕ) (b : Batch)
    (ht : ∀ rs ∈ rss, ∀ row ∈ rs, ∀ e ∈ row, e.1 = true)
    (hne : rss ≠ [])
    (h : collateCore (rss.map (fun rs => csrFromRows rs (g rs))) Rcat Rorigcat Zcat U0cat Ns
      = some b) :
    b.idnb_i = (rowsToPairs 0 (catRows 0 rss)).map (·.1) ∧
    b.idnb_j = (rowsToPairs 0 (catRows 0 rss)).map (·.2) ∧
    b.id3dnb_i = (survivors (catRows 0 rss)).map (·.i) ∧
    b.id3dnb_j = (survivors (catRows 0 rss)).map (·.j) ∧
    b.id3dnb_k = (survivors (catRows 0 rss)).map (·.k) ∧
    b.id_expand_kj = (survivors (catRows 0 rss)).map (·.pos) ∧
    b.id_reduce_ji = (survivors (catRows 0 rss)).map (·.src) := by
  by_cases hx : bmatIndices 0 (rss.map (fun rs => csrFromRows rs (g rs))) = []
  · exfalso
    have hnone : _bmat_fast (rss.map (fun rs => csrFromRows rs (g rs))) = none := by
      unfold _bmat_fast
      rw [hx]
    unfold collateCore at h
    rw [hnone] at h
    simp at h
  · have htMR : ∀ row ∈ catRows 0 rss, ∀ e ∈ row, e.1 = true :=
      catRows_allTrue rss ht 0
    have hrowT : ∀ j, ∀ e ∈ (catRows 0 rss).getD j [], e.1 = true := by
      intro j e he
      by_cases hj : j < (catRows 0 rss).length
      · rw [List.getD_eq_getElem _ _ hj] at he
        exact htMR _ (List.getElem_mem hj) e he
      · rw [List.getD_eq_default _ _ (by omega)] at he
        cases he
    have hb := bmat_fast_eq rss g hne hx
    unfold collateCore at h
    rw [hb, Option.map_some'] at h
    obtain ⟨bs, bR, bRo, bZ, bi, bj, b3i, b3j, b3k, bek, brj, bU⟩ := b
    simp only [Option.some.injEq, Batch.mk.injEq] at h
    obtain ⟨h1, h2, h3, h4, h5, h6, h7, h8, h9, h10, h11, h12⟩ := h
    have hnz : ∀ k, Csr.nonzero ⟨(csrFromRows (catRows 0 rss) 0).data,
        (csrFromRows (catRows 0 rss) 0).indices,
        (csrFromRows (catRows 0 rss) 0).indptr, k⟩ = rowsToPairs 0 (catRows 0 rss) := by
      intro k
      exact congrArg (rowsToPairs 0) (toRows_csrFromRows (catRows 0 rss) 0)
    have htoRows : ∀ k, Csr.toRows ⟨(csrFromRows (catRows 0 rss) 0).data,
        (csrFromRows (catRows 0 rss) 0).indices,
        (csrFromRows (catRows 0 rss) 0).indptr, k⟩ = catRows 0 rss := by
      intro k
      exact toRows_csrFromRows (catRows 0 rss) 0
    have hNR : ∀ k k', Csr.toRows ⟨List.range (Csr.nnz
          (⟨(csrFromRows (catRows 0 rss) 0).data, (csrFromRows (catRows 0 rss) 0).indices,
            (csrFromRows (catRows 0 rss) 0).indptr, k⟩ : Csr Bool)),
        (csrFromRows (catRows 0 rss) 0).indices,
        (csrFromRows (catRows 0 rss) 0).indptr, k'⟩ = numberRows 0 (catRows 0 rss) := by
      intro k k'
      exact toRows_arange (catRows 0 rss) 0 k'
    have hntr2 : (((rowsToPairs 0 (catRows 0 rss)).map (·.2)).map
          (fun j => (catRows 0 rss).getD j [])).map
          (fun row => (row.map (fun e => if e.1 then 1 else 0)).sum)
        = (rowsToPairs 0 (catRows 0 rss)).map (fun e => ((catRows 0 rss).getD e.2 []).length) := by
      rw [List.map_map, List.map_map]
      apply List.map_congr_left
      intro e _
      show ((((catRows 0 rss)).getD e.2 []).map (fun e => if e.1 then 1 else 0)).sum = _
      exact allTrue_row_sum _ (hrowT e.2)
    have hYiFull : repNat ((rowsToPairs 0 (catRows 0 rss)).map (·.1))
          ((rowsToPairs 0 (catRows 0 rss)).map (fun e => ((catRows 0 rss).getD e.2 []).length))
        = (tripsOf (catRows 0 rss)).map (·.i) := by
      rw [repNat_map_map]
      exact (tripsOf_map_i (catRows 0 rss)).symm
    have hYjFull : repNat ((rowsToPairs 0 (catRows 0 rss)).map (·.2))
          ((rowsToPairs 0 (catRows 0 rss)).map (fun e => ((catRows 0 rss).getD e.2 []).length))
        = (tripsOf (catRows 0 rss)).map (·.j) := by
      rw [repNat_map_map]
      exact (tripsOf_map_j (catRows 0 rss)).symm
    have hYkFull : ((((rowsToPairs 0 (catRows 0 rss)).map (·.2)).map
          (fun j => (catRows 0 rss).getD j [])).map
          (fun row => (row.filter (·.1)).map (·.2))).flatten
        = (tripsOf (catRows 0 rss)).map (·.k) := by
      rw [tripsOf_map_k, List.flatMap_def, List.map_map, List.map_map]
      congr 1
      apply List.map_congr_left
      intro e _
      show (((catRows 0 rss).getD e.2 []).filter (·.1)).map (·.2) = _
      rw [List.filter_eq_self.2 (hrowT e.2)]
    have hexpFull : ((((rowsToPairs 0 (catRows 0 rss)).map (·.2)).map
          (fun j => (numberRows 0 (catRows 0 rss)).getD j [])).map
          (fun row => row.map (·.1))).flatten
        = (tripsOf (catRows 0 rss)).map (·.pos) := by
      rw [tripsOf_map_pos, List.flatMap_def, List.map_map, List.map_map]
      rfl
    have hredFull : cooRowsFrom 0 (((rowsToPairs 0 (catRows 0 rss)).map (·.2)).map
          (fun j => (numberRows 0 (catRows 0 rss)).getD j []))
        = (tripsOf (catRows 0 rss)).map (·.src) := by
      rw [tripsOf_map_src, List.map_map]
      rfl
    have hpredAll : ∀ p ∈ List.range (tripsOf (catRows 0 rss)).length,
        (fun p => decide (¬ ((tripsOf (catRows 0 rss)).map (·.i)).getD p 0
          = ((tripsOf (catRows 0 rss)).map (·.k)).getD p 0)) p
        = (fun p => decide (¬ ((tripsOf (catRows 0 rss)).getD p ⟨0, 0, 0, 0, 0⟩).i
          = ((tripsOf (catRows 0 rss)).getD p ⟨0, 0, 0, 0, 0⟩).k)) p := by
      intro p hp
      have hplt := List.mem_range.1 hp
      simp only
      rw [getD_map _ _ _ ⟨0, 0, 0, 0, 0⟩ _ hplt, getD_map _ _ _ ⟨0, 0, 0, 0, 0⟩ _ hplt]
    refine ⟨?_, ?_, ?_, ?_, ?_, ?_, ?_⟩
    · rw [← h5, hnz]
    · rw [← h6, hnz]
    · rw [← h7, hnz, htoRows, hntr2, hYiFull, hYkFull, List.length_map,
        List.filter_congr hpredAll]
      exact filter_range_getD (tripsOf (catRows 0 rss))
        (fun y => decide (¬ y.i = y.k)) (fun y => y.i) ⟨0, 0, 0, 0, 0⟩ 0
    · rw [← h8, hnz, htoRows, hntr2, hYiFull, hYjFull, hYkFull, List.length_map,
        List.filter_congr hpredAll]
      exact filter_range_getD (tripsOf (catRows 0 rss))
        (fun y => decide (¬ y.i = y.k)) (fun y => y.j) ⟨0, 0, 0, 0, 0⟩ 0
    · rw [← h9, hnz, htoRows, hntr2, hYiFull, hYkFull, List.length_map,
        List.filter_congr hpredAll]
      exact filter_range_getD (tripsOf (catRows 0 rss))
        (fun y => decide (¬ y.i = y.k)) (fun y => y.k) ⟨0, 0, 0, 0, 0⟩ 0
    · rw [← h10, hnz, htoRows, hNR, hntr2, hYiFull, hYkFull, hexpFull, List.length_map,
        List.filter_congr hpredAll]
      exact filter_range_getD (tripsOf (catRows 0 rss))
        (fun y => decide (¬ y.i = y.k)) (fun y => y.pos) ⟨0, 0, 0, 0, 0⟩ 0
    · rw [← h11, hnz, htoRows, hNR, hntr2, hYiFull, hYkFull, hredFull, List.length_map,
        List.filter_congr hpredAll]
      exact filter_range_getD (tripsOf (catRows 0 rss))
        (fun y => decide (¬ y.i = y.k)) (fun y => y.src) ⟨0, 0, 0, 0, 0⟩ 0

theorem mapM_option_length {α β : Type} (f : α → Option β) :
    ∀ (l : List α) (l' : List β), l.mapM f = some l' → l'.length = l.length := by
  intro l
  induction l with
  | nil =>
      intro l' h
      simp only [List.mapM_nil, pure, Option.some.injEq] at h
      rw [← h]
      rfl
  | cons a t ih =>
      intro l' h
      rw [List.mapM_cons] at h
      obtain ⟨b1, hb1, h⟩ := Option.bind_eq_some.1 h
      obtain ⟨bs, hbs, h⟩ := Option.bind_eq_some.1 h
      simp only [pure, Option.some.injEq] at h
      rw [← h, List.length_cons, List.length_cons, ih bs hbs]

theorem rowsToPairs_append (a b : List (List (Bool × ℕ))) :
    ∀ r, rowsToPairs r (a ++ b) = rowsToPairs r a ++ rowsToPairs (r + a.length) b := by
  induction a with
  | nil => intro r; simp [rowsToPairs]
  | cons row rest ih =>
      intro r
      rw [List.cons_append, rowsToPairs, rowsToPairs, ih (r + 1), List.append_assoc,
        List.length_cons]
      have : r + 1 + rest.length = r + (rest.length + 1) := by omega
      rw [this]

theorem dist2_self (p : Vec3) : dist2 p p = 0 := by
  unfold dist2
  ring

theorem dist2_nonneg (p q : Vec3) : 0 ≤ dist2 p q := by
  unfold dist2
  positivity

theorem dist2_eq_zero_iff (p q : Vec3) : dist2 p q = 0 ↔ p = q := by
  constructor
  · intro h
    unfold dist2 at h
    have h1 : p.1 - q.1 = 0 := by nlinarith [sq_nonneg (p.1 - q.1), sq_nonneg (p.2.1 - q.2.1), sq_nonneg (p.2.2 - q.2.2)]
    have h2 : p.2.1 - q.2.1 = 0 := by nlinarith [sq_nonneg (p.1 - q.1), sq_nonneg (p.2.1 - q.2.1), sq_nonneg (p.2.2 - q.2.2)]
    have h3 : p.2.2 - q.2.2 = 0 := by nlinarith [sq_nonneg (p.1 - q.1), sq_nonneg (p.2.1 - q.2.1), sq_nonneg (p.2.2 - q.2.2)]
    obtain ⟨a, b, c⟩ := p
    obtain ⟨a', b', c'⟩ := q
    simp only [Prod.mk.injEq]
    constructor
    · linarith [h1]
    constructor
    · linarith [h2]
    · linarith [h3]
  · intro h
    rw [h, dist2_self]

/-- With a nonnegative cutoff the diagonal entries of the per-structure
adjacency are false (the thresholded diagonal is cancelled by the identity
subtraction). -/
theorem adjDense_diag_false (R : List Vec3) (c : ℚ) (hc : 0 ≤ c) (i : ℕ) :
    adjDense R c i i = false := by
  unfold adjDense distLE
  rw [decide_eq_true (⟨hc, by rw [dist2_self]; positivity⟩ : 0 ≤ c ∧
    dist2 (R.getD i 0) (R.getD i 0) ≤ c ^ 2)]
  simp

/-- Inversion of a successful call: the batch comes from `collateCore`
applied to the thresholded adjacency matrices of a nonempty list of
(augmented) per-structure positions. -/
theorem call_some_inv (cutoff : ℚ) (rotate : Bool) (rotDraws : List Mat3)
    (deltaDraws : List (List Vec3)) (examples : List Example)
    (ex' : List Example) (b : Batch)
    (h : AtomsCollate.call cutoff rotate rotDraws deltaDraws examples = some (ex', b)) :
    ∃ augmented : List (List Vec3), augmented ≠ [] ∧
      ∃ Rcat Rorigcat Zcat U0cat Ns,
      collateCore (augmented.map (fun Rb => csrOfDenseB Rb.length (adjDense Rb cutoff)))
        Rcat Rorigcat Zcat U0cat Ns = some b := by
  unfold AtomsCollate.call at h
  cases examples with
  | nil => cases h
  | cons e0 rest =>
      simp only [bind, Option.bind_eq_some] at h
      obtain ⟨aug, haug, h⟩ := h
      obtain ⟨U0cat, hU0, h⟩ := h
      have haugne : aug ≠ [] := by
        intro hnil
        have hlen := mapM_option_length _ _ _ haug
        rw [hnil] at hlen
        simp at hlen
      split at h
      · obtain ⟨bb, hbb, heq⟩ := Option.map_eq_some'.1 h
        have hb : bb = b := congrArg Prod.snd heq
        rw [hb] at hbb
        exact ⟨aug.map (·.2.2), by simpa using haugne, _, _, _, _, _, hbb⟩
      · cases h

theorem denseRows_getD {n : ℕ} {A : ℕ → ℕ → Bool} {ridx : ℕ} (h : ridx < n) :
    (denseRows n A).getD ridx [] = (List.range n).filter (fun j => A ridx j) := by
  unfold denseRows
  rw [getD_map (List.range n) _ ridx 0 [] (by simpa using h)]
  congr 1
  rw [List.getD_eq_getElem _ _ (by simpa using h), List.getElem_range]

theorem rowsToPairs_catRows_ne (rss : List (List (List (Bool × ℕ))))
    (hb : ∀ rs ∈ rss, ∀ ridx, ridx < rs.length →
      ∀ e ∈ rs.getD ridx [], e.2 < rs.length ∧ ¬ e.2 = ridx) :
    ∀ off, ∀ pr ∈ rowsToPairs off (catRows off rss), ¬ pr.1 = pr.2 := by
  induction rss with
  | nil => intro off pr hpr; cases hpr
  | cons rs rest ih =>
      intro off pr hpr
      rw [catRows, rowsToPairs_append] at hpr
      rcases List.mem_append.1 hpr with h1 | h2
      · obtain ⟨ridx, hlt, e, he, _, hpr⟩ := mem_rowsToPairs h1
        have hlt' : ridx < rs.length := by simpa using hlt
        rw [getD_map rs _ ridx [] [] hlt'] at he
        obtain ⟨e0, he0, hmape⟩ := List.mem_map.1 he
        have hb0 := hb rs (by simp) ridx hlt' e0 he0
        rw [hpr, ← hmape]
        simp only
        omega
      · have hlen : (rs.map (fun row => row.map (fun e => (e.1, e.2 + off)))).length
            = rs.length := by simp
        rw [hlen] at h2
        exact ih (fun rs' hrs' => hb rs' (by simp [hrs'])) (off + rs.length) pr h2

set_option maxHeartbeats 1600000 in
/-- The fields of the batch produced by a successful call: the edge arrays
enumerate stored entries of a merged boolean matrix, the triplet arrays are
the parallel projections of its surviving triplets, and with a nonnegative
cutoff the enumerated entries avoid the diagonal. -/
theorem call_batch_spec (cutoff : ℚ) (rotate : Bool) (rotDraws : List Mat3)
    (deltaDraws : List (List Vec3)) (examples : List Example)
    (ex' : List Example) (b : Batch)
    (h : AtomsCollate.call cutoff rotate rotDraws deltaDraws examples = some (ex', b)) :
    ∃ MR : List (List (Bool × ℕ)),
      (∀ row ∈ MR, ∀ e ∈ row, e.1 = true) ∧
      b.idnb_i = (rowsToPairs 0 MR).map (·.1) ∧
      b.idnb_j = (rowsToPairs 0 MR).map (·.2) ∧
      b.id3dnb_i = (survivors MR).map (·.i) ∧
      b.id3dnb_j = (survivors MR).map (·.j) ∧
      b.id3dnb_k = (survivors MR).map (·.k) ∧
      b.id_expand_kj = (survivors MR).map (·.pos) ∧
      b.id_reduce_ji = (survivors MR).map (·.src) ∧
      (0 ≤ cutoff → ∀ pr ∈ rowsToPairs 0 MR, ¬ pr.1 = pr.2) := by
  obtain ⟨augmented, haugne, Rcat, Rorigcat, Zcat, U0cat, Ns, hcore⟩ :=
    call_some_inv cutoff rotate rotDraws deltaDraws examples ex' b h
  have hlist : augmented.map (fun Rb => csrOfDenseB Rb.length (adjDense Rb cutoff))
      = (augmented.map (fun Rb => (denseRows Rb.length (adjDense Rb cutoff)).map
          (fun r => r.map (fun j => (true, j))))).map
          (fun rs => csrFromRows rs rs.length) := by
    rw [List.map_map]
    apply List.map_congr_left
    intro Rb _
    show csrOfDenseB Rb.length (adjDense Rb cutoff) = _
    unfold csrOfDenseB
    congr 1
    simp [denseRows]
  rw [hlist] at hcore
  have ht : ∀ rs ∈ augmented.map (fun Rb => (denseRows Rb.length (adjDense Rb cutoff)).map
      (fun r => r.map (fun j => (true, j)))), ∀ row ∈ rs, ∀ e ∈ row, e.1 = true := by
    intro rs hrs row hrow e he
    obtain ⟨Rb, _, hrseq⟩ := List.mem_map.1 hrs
    rw [← hrseq] at hrow
    obtain ⟨r0, _, hroweq⟩ := List.mem_map.1 hrow
    rw [← hroweq] at he
    obtain ⟨j, _, heeq⟩ := List.mem_map.1 he
    rw [← heeq]
  have hne : augmented.map (fun Rb => (denseRows Rb.length (adjDense Rb cutoff)).map
      (fun r => r.map (fun j => (true, j)))) ≠ [] := by
    simpa using haugne
  have hspec := collateCore_spec _ (fun rs => rs.length) _ _ _ _ _ _ ht hne hcore
  refine ⟨catRows 0 (augmented.map (fun Rb => (denseRows Rb.length (adjDense Rb cutoff)).map
      (fun r => r.map (fun j => (true, j))))), catRows_allTrue _ ht 0,
    hspec.1, hspec.2.1, hspec.2.2.1, hspec.2.2.2.1, hspec.2.2.2.2.1,
    hspec.2.2.2.2.2.1, hspec.2.2.2.2.2.2, ?_⟩
  intro hc pr hpr
  refine rowsToPairs_catRows_ne _ ?_ 0 pr hpr
  intro rs hrs ridx hridx e he
  obtain ⟨Rb, _, hrseq⟩ := List.mem_map.1 hrs
  have hn : rs.length = Rb.length := by rw [← hrseq]; simp [denseRows]
  rw [← hrseq] at he
  have hridx' : ridx < Rb.length := by rw [← hn]; exact hridx
  rw [getD_map _ _ _ [] [] (by simpa [denseRows] using hridx'), denseRows_getD hridx'] at he
  obtain ⟨j, hj, heeq⟩ := List.mem_map.1 he
  have hjf := List.mem_filter.1 hj
  have hjn : j < Rb.length := by simpa using hjf.1
  have hjne : ¬ j = ridx := by
    intro hjr
    rw [hjr] at hjf
    rw [adjDense_diag_false Rb cutoff hc ridx] at hjf
    exact absurd hjf.2 (by simp)
  rw [← heeq]
  exact ⟨by rw [hn]; exact hjn, hjne⟩

/-- C1 (amended): for every assembled batch, `id_reduce_ji[t]` is the
batch-global edge id of the triplet's outer edge (i←j): it is a valid
position in the edge enumeration and the edge stored there is exactly
(id3dnb_i[t], id3dnb_j[t]). -/
theorem c1_amended (cutoff : ℚ) (rotate : Bool) (rotDraws : List Mat3)
    (deltaDraws : List (List Vec3)) (examples : List Example) (t : ℕ)
    (h : t < (outOf (AtomsCollate.call cutoff rotate rotDraws deltaDraws
      examples)).id_reduce_ji.length) :
    (outOf (AtomsCollate.call cutoff rotate rotDraws deltaDraws
        examples)).id_reduce_ji.getD t 0
      < (outOf (AtomsCollate.call cutoff rotate rotDraws deltaDraws
        examples)).idnb_i.length ∧
    (outOf (AtomsCollate.call cutoff rotate rotDraws deltaDraws
        examples)).idnb_i.getD ((outOf (AtomsCollate.call cutoff rotate rotDraws deltaDraws
        examples)).id_reduce_ji.getD t 0) 0
      = (outOf (AtomsCollate.call cutoff rotate rotDraws deltaDraws
        examples)).id3dnb_i.getD t 0 ∧
    (outOf (AtomsCollate.call cutoff rotate rotDraws deltaDraws
        examples)).idnb_j.getD ((outOf (AtomsCollate.call cutoff rotate rotDraws deltaDraws
        examples)).id_reduce_ji.getD t 0) 0
      = (outOf (AtomsCollate.call cutoff rotate rotDraws deltaDraws
        examples)).id3dnb_j.getD t 0 := by
  cases hcall : AtomsCollate.call cutoff rotate rotDraws deltaDraws examples with
  | none =>
      rw [hcall] at h
      simp [outOf, emptyBatch] at h
  | some p =>
      obtain ⟨ex', b⟩ := p
      rw [hcall] at h
      have hB : outOf (some (ex', b)) = b := rfl
      rw [hB] at h ⊢
      obtain ⟨MR, htMR, hbi, hbj, h3i, h3j, h3k, hek, hrj, hnd⟩ :=
        call_batch_spec cutoff rotate rotDraws deltaDraws examples ex' b hcall
      rw [hrj, List.length_map] at h
      have hymem : (survivors MR).getD t ⟨0, 0, 0, 0, 0⟩ ∈ survivors MR := by
        rw [List.getD_eq_getElem _ _ h]
        exact List.getElem_mem h
      have hyT : (survivors MR).getD t ⟨0, 0, 0, 0, 0⟩ ∈ tripsOf MR :=
        (List.mem_filter.1 hymem).1
      have hyspec := mem_tripsOf htMR hyT
      rw [hrj, hbi, hbj, h3i, h3j,
        getD_map (survivors MR) _ t ⟨0, 0, 0, 0, 0⟩ 0 h,
        getD_map (survivors MR) _ t ⟨0, 0, 0, 0, 0⟩ 0 h,
        getD_map (survivors MR) _ t ⟨0, 0, 0, 0, 0⟩ 0 h,
        List.length_map,
        getD_map (rowsToPairs 0 MR) _ _ (0, 0) 0 hyspec.1,
        getD_map (rowsToPairs 0 MR) _ _ (0, 0) 0 hyspec.1,
        hyspec.2.1]
      exact ⟨hyspec.1, rfl, rfl⟩

/-- C2: for every assembled batch and every surviving triplet t,
`id_expand_kj[t]` is a valid global edge id whose edge has target equal to
the triplet's middle atom and source equal to its outer-most atom. -/
theorem c2_expand_valid (cutoff : ℚ) (rotate : Bool) (rotDraws : List Mat3)
    (deltaDraws : List (List Vec3)) (examples : List Example) (t : ℕ)
    (h : t < (outOf (AtomsCollate.call cutoff rotate rotDraws deltaDraws
      examples)).id_expand_kj.length) :
    (outOf (AtomsCollate.call cutoff rotate rotDraws deltaDraws
        examples)).id_expand_kj.getD t 0
      < (outOf (AtomsCollate.call cutoff rotate rotDraws deltaDraws
        examples)).idnb_i.length ∧
    (outOf (AtomsCollate.call cutoff rotate rotDraws deltaDraws
        examples)).idnb_i.getD ((outOf (AtomsCollate.call cutoff rotate rotDraws deltaDraws
        examples)).id_expand_kj.getD t 0) 0
      = (outOf (AtomsCollate.call cutoff rotate rotDraws deltaDraws
        examples)).id3dnb_j.getD t 0 ∧
    (outOf (AtomsCollate.call cutoff rotate rotDraws deltaDraws
        examples)).idnb_j.getD ((outOf (AtomsCollate.call cutoff rotate rotDraws deltaDraws
        examples)).id_expand_kj.getD t 0) 0
      = (outOf (AtomsCollate.call cutoff rotate rotDraws deltaDraws
        examples)).id3dnb_k.getD t 0 := by
  cases hcall : AtomsCollate.call cutoff rotate rotDraws deltaDraws examples with
  | none =>
      rw [hcall] at h
      simp [outOf, emptyBatch] at h
  | some p =>
      obtain ⟨ex', b⟩ := p
      rw [hcall] at h
      have hB : outOf (some (ex', b)) = b := rfl
      rw [hB] at h ⊢
      obtain ⟨MR, htMR, hbi, hbj, h3i, h3j, h3k, hek, hrj, hnd⟩ :=
        call_batch_spec cutoff rotate rotDraws deltaDraws examples ex' b hcall
      rw [hek, List.length_map] at h
      have hymem : (survivors MR).getD t ⟨0, 0, 0, 0, 0⟩ ∈ survivors MR := by
        rw [List.getD_eq_getElem _ _ h]
        exact List.getElem_mem h
      have hyT : (survivors MR).getD t ⟨0, 0, 0, 0, 0⟩ ∈ tripsOf MR :=
        (List.mem_filter.1 hymem).1
      have hyspec := mem_tripsOf htMR hyT
      rw [hek, hbi, hbj, h3j, h3k,
        getD_map (survivors MR) _ t ⟨0, 0, 0, 0, 0⟩ 0 h,
        getD_map (survivors MR) _ t ⟨0, 0, 0, 0, 0⟩ 0 h,
        getD_map (survivors MR) _ t ⟨0, 0, 0, 0, 0⟩ 0 h,
        List.length_map,
        getD_map (rowsToPairs 0 MR) _ _ (0, 0) 0 hyspec.2.2.1,
        getD_map (rowsToPairs 0 MR) _ _ (0, 0) 0 hyspec.2.2.1,
        hyspec.2.2.2]
      exact ⟨hyspec.2.2.1, rfl, rfl⟩

/-- C3 (amended): with a nonnegative cutoff the assembled edge arrays
contain no self-loop. -/
theorem c3_amended (cutoff : ℚ) (rotate : Bool) (rotDraws : List Mat3)
    (deltaDraws : List (List Vec3)) (examples : List Example)
    (hc : 0 ≤ cutoff) (e : ℕ)
    (he : e < (outOf (AtomsCollate.call cutoff rotate rotDraws deltaDraws
      examples)).idnb_i.length) :
    ¬ (outOf (AtomsCollate.call cutoff rotate rotDraws deltaDraws
        examples)).idnb_i.getD e 0
      = (outOf (AtomsCollate.call cutoff rotate rotDraws deltaDraws
        examples)).idnb_j.getD e 0 := by
  cases hcall : AtomsCollate.call cutoff rotate rotDraws deltaDraws examples with
  | none =>
      rw [hcall] at he
      simp [outOf, emptyBatch] at he
  | some p =>
      obtain ⟨ex', b⟩ := p
      rw [hcall] at he
      have hB : outOf (some (ex', b)) = b := rfl
      rw [hB] at he ⊢
      obtain ⟨MR, htMR, hbi, hbj, h3i, h3j, h3k, hek, hrj, hnd⟩ :=
        call_batch_spec cutoff rotate rotDraws deltaDraws examples ex' b hcall
      rw [hbi, List.length_map] at he
      rw [hbi, hbj, getD_map (rowsToPairs 0 MR) _ e (0, 0) 0 he,
        getD_map (rowsToPairs 0 MR) _ e (0, 0) 0 he]
      have hpr : (rowsToPairs 0 MR).getD e (0, 0) ∈ rowsToPairs 0 MR := by
        rw [List.getD_eq_getElem _ _ he]
        exact List.getElem_mem he
      exact hnd hc _ hpr

/-- C4: the three triplet arrays remain parallel (their lengths agree) and
every entry satisfies the degeneracy exclusion id3dnb_k[t] != id3dnb_i[t]. -/
theorem c4_triplet_exclusion (cutoff : ℚ) (rotate : Bool) (rotDraws : List Mat3)
    (deltaDraws : List (List Vec3)) (examples : List Example) :
    (outOf (AtomsCollate.call cutoff rotate rotDraws deltaDraws
        examples)).id3dnb_i.length
      = (outOf (AtomsCollate.call cutoff rotate rotDraws deltaDraws
        examples)).id3dnb_k.length ∧
    (outOf (AtomsCollate.call cutoff rotate rotDraws deltaDraws
        examples)).id3dnb_j.length
      = (outOf (AtomsCollate.call cutoff rotate rotDraws deltaDraws
        examples)).id3dnb_k.length ∧
    ∀ t, t < (outOf (AtomsCollate.call cutoff rotate rotDraws deltaDraws
        examples)).id3dnb_k.length →
      ¬ (outOf (AtomsCollate.call cutoff rotate rotDraws deltaDraws
          examples)).id3dnb_k.getD t 0
        = (outOf (AtomsCollate.call cutoff rotate rotDraws deltaDraws
          examples)).id3dnb_i.getD t 0 := by
  cases hcall : AtomsCollate.call cutoff rotate rotDraws deltaDraws examples with
  | none =>
      simp [outOf, emptyBatch]
  | some p =>
      obtain ⟨ex', b⟩ := p
      have hB : outOf (some (ex', b)) = b := rfl
      rw [hB]
      obtain ⟨MR, htMR, hbi, hbj, h3i, h3j, h3k, hek, hrj, hnd⟩ :=
        call_batch_spec cutoff rotate rotDraws deltaDraws examples ex' b hcall
      rw [h3i, h3j, h3k]
      refine ⟨by simp, by simp, ?_⟩
      intro t ht
      rw [List.length_map] at ht
      have hymem : (survivors MR).getD t ⟨0, 0, 0, 0, 0⟩ ∈ survivors MR := by
        rw [List.getD_eq_getElem _ _ ht]
        exact List.getElem_mem ht
      have hne := (List.mem_filter.1 hymem).2
      rw [getD_map (survivors MR) _ t ⟨0, 0, 0, 0, 0⟩ 0 ht,
        getD_map (survivors MR) _ t ⟨0, 0, 0, 0, 0⟩ 0 ht]
      intro hkeq
      exact absurd (hkeq.symm) (by simpa using hne)

/-- Witness for `c1_amended` on the chain batch at triplet 1. -/
theorem c1_amended_witness :
    1 < (outOf chainCall).id_reduce_ji.length ∧
    ((outOf chainCall).id_reduce_ji.getD 1 0 < (outOf chainCall).idnb_i.length ∧
     (outOf chainCall).idnb_i.getD ((outOf chainCall).id_reduce_ji.getD 1 0) 0
       = (outOf chainCall).id3dnb_i.getD 1 0 ∧
     (outOf chainCall).idnb_j.getD ((outOf chainCall).id_reduce_ji.getD 1 0) 0
       = (outOf chainCall).id3dnb_j.getD 1 0) :=
  ⟨by decide, c1_amended (3 / 2) false [] [zeros3] [chainEx] 1 (by decide)⟩

/-- Witness for `c2_expand_valid` on the chain batch at triplet 0. -/
theorem c2_expand_valid_witness :
    0 < (outOf chainCall).id_expand_kj.length ∧
    ((outOf chainCall).id_expand_kj.getD 0 0 < (outOf chainCall).idnb_i.length ∧
     (outOf chainCall).idnb_i.getD ((outOf chainCall).id_expand_kj.getD 0 0) 0
       = (outOf chainCall).id3dnb_j.getD 0 0 ∧
     (outOf chainCall).idnb_j.getD ((outOf chainCall).id_expand_kj.getD 0 0) 0
       = (outOf chainCall).id3dnb_k.getD 0 0) :=
  ⟨by decide, c2_expand_valid (3 / 2) false [] [zeros3] [chainEx] 0 (by decide)⟩

/-- Witness for `c3_amended` on the chain batch at edge 0. -/
theorem c3_amended_witness :
    (0 : ℚ) ≤ 3 / 2 ∧ 0 < (outOf chainCall).idnb_i.length ∧
    ¬ (outOf chainCall).idnb_i.getD 0 0 = (outOf chainCall).idnb_j.getD 0 0 :=
  ⟨by decide, by decide, c3_amended (3 / 2) false [] [zeros3] [chainEx] (by decide) 0 (by decide)⟩

/-- Witness for `c4_triplet_exclusion` on the chain batch. -/
theorem c4_triplet_exclusion_witness :
    (outOf chainCall).id3dnb_i.length = (outOf chainCall).id3dnb_k.length ∧
    (outOf chainCall).id3dnb_j.length = (outOf chainCall).id3dnb_k.length ∧
    ∀ t, t < (outOf chainCall).id3dnb_k.length →
      ¬ (outOf chainCall).id3dnb_k.getD t 0 = (outOf chainCall).id3dnb_i.getD t 0 :=
  c4_triplet_exclusion (3 / 2) false [] [zeros3] [chainEx]

/-- C1 (counterexample): in the chain batch the second surviving triplet has
outer edge (i,j) = (2,1), which is edge number 3, and the edges sharing
source atom 1 are edges 0 and 3, so that edge's local rank within its
source's outgoing-edge group is 1; the output `id_reduce_ji[1]` however is 3,
the global edge id, not the local rank. -/
theorem c1_counterexample :
    (outOf chainCall).id_reduce_ji.getD 1 0 = 3 ∧
    localRankBySource ((outOf chainCall).idnb_i.zip (outOf chainCall).idnb_j) 3 = 1 ∧
    (3 : ℕ) ≠ 1 := by decide

/-- C3 (counterexample): with cutoff = -1 a single-atom structure yields one
edge and it is a self-loop (`idnb_i[0] = idnb_j[0] = 0`): subtracting the
boolean identity from the empty thresholded matrix leaves a true diagonal. -/
theorem c3_counterexample :
    0 < (outOf loopCall).idnb_i.length ∧
    (outOf loopCall).idnb_i.getD 0 0 = (outOf loopCall).idnb_j.getD 0 0 := by decide

/-- C5 (counterexample): merging the 2x2 adjacency of two coincident atoms
with the empty 1x1 adjacency of an isolated atom gives a matrix whose
inferred shape is 3x2 (`max(new_indices) + 1` columns), not the 3x3
block-diagonal of the inputs. -/
theorem c5_counterexample :
    _bmat_fast [pairAdjCsr, emptyOneCsr] ≠
      some (blockDiagRef [pairAdjCsr, emptyOneCsr]) := by decide

/-- C6: for one structure of 3 atoms at the vertices of the equilateral
triangle with side 1 and cutoff 2 (no augmentation), the thresholded
adjacency is exactly `triAdj` (every off-diagonal pair within cutoff), and
assembling that structure produces exactly 6 directed edges and 6 surviving
triplets, one per edge, whose k is the third atom distinct from the edge's i
and j. -/
theorem c6_equilateral_triangle :
    (∀ i, i < 3 → ∀ j, j < 3 → (adjDenseR triR 2 i j ↔ triAdj i j = true)) ∧
    triBatch.idnb_i = [0, 0, 1, 1, 2, 2] ∧
    triBatch.idnb_j = [1, 2, 0, 2, 0, 1] ∧
    triBatch.id3dnb_i = [0, 0, 1, 1, 2, 2] ∧
    triBatch.id3dnb_j = [1, 2, 0, 2, 0, 1] ∧
    triBatch.id3dnb_k = [2, 1, 2, 0, 1, 0] := by
  have h3 : Real.sqrt 3 ^ 2 = 3 := Real.sq_sqrt (by norm_num)
  have key : ∀ i, i < 3 → ∀ j, j < 3 →
      dist2R (triR.getD i 0) (triR.getD j 0) = if i = j then 0 else 1 := by
    intro i hi j hj
    interval_cases i <;> interval_cases j <;>
      simp [dist2R, triR] <;> nlinarith [h3]
  refine ⟨?_, by decide, by decide, by decide, by decide, by decide⟩
  intro i hi j hj
  rw [adjDenseR, key i hi j hj]
  by_cases hij : i = j
  · simp only [if_pos hij, Real.sqrt_zero, triAdj, hij]
    simp [Xor']
  · simp only [if_neg hij, Real.sqrt_one, triAdj]
    simp [Xor', hij]

/-- C7 (counterexample): a batch whose first structure has zero atoms is
assembled without any error: the call returns a batch (the empty structure
silently contributes no atoms and no edges), instead of raising a
`DegenerateInputError`. -/
theorem c7_counterexample :
    c7Call.isSome = true ∧
    (outOf c7Call).batch_seg = [1, 1] ∧
    (outOf c7Call).idnb_i = [0, 1] ∧
    (outOf c7Call).idnb_j = [1, 0] := by decide

/-- C8 (counterexample): two distinct coincident atoms at cutoff 0 yield two
edges (not zero), refuting the cutoff <= 0 clause; and a single-atom
structure at cutoff -1 yields one (self-loop) edge, refuting the N <= 1
clause. -/
theorem c8_counterexample :
    structEdges [(0, 0, 0), (0, 0, 0)] 0 = [(0, 1), (1, 0)] ∧
    structEdges [(0, 0, 0)] (-1) = [(0, 0)] := by decide

/-! ## The per-structure graph: helpers for claim C8 -/

theorem structEdges_eq (R : List Vec3) (c : ℚ) :
    structEdges R c = rowsToPairs 0
      ((denseRows R.length (adjDense R c)).map (fun r => r.map (fun j => (true, j)))) := by
  unfold structEdges csrOfDenseB Csr.nonzero
  rw [toRows_csrFromRows]

theorem adjDense_neg (R : List Vec3) (c : ℚ) (hc : c < 0) (i j : ℕ) :
    adjDense R c i j = decide (i = j) := by
  unfold adjDense distLE
  rw [decide_eq_false (fun h => absurd h.1 (not_le.2 hc))]
  simp

theorem filter_range_eq_pt (i : ℕ) : ∀ n, i < n →
    (List.range n).filter (fun j => decide (i = j)) = [i] := by
  intro n
  induction n with
  | zero => intro h; omega
  | succ m ih =>
      intro h
      rw [List.range_succ, List.filter_append]
      by_cases him : i < m
      · rw [ih him]
        have hm : List.filter (fun j => decide (i = j)) [m] = [] := by
          simp only [List.filter, decide_eq_true_eq]
          rw [decide_eq_false (by omega : ¬ i = m)]
        rw [hm, List.append_nil]
      · have him' : i = m := by omega
        have h1 : (List.range m).filter (fun j => decide (i = j)) = [] := by
          apply List.filter_eq_nil_iff.2
          intro j hj
          have : j < m := List.mem_range.1 hj
          simp only [decide_eq_true_eq]
          omega
        rw [h1, List.nil_append, him']
        simp

theorem rowsToPairs_diag (n : ℕ) : ∀ r,
    rowsToPairs r ((List.range' r n).map (fun i => [((true : Bool), i)]))
      = (List.range' r n).map (fun i => (i, i)) := by
  induction n with
  | zero => intro r; rfl
  | succ m ih =>
      intro r
      rw [List.range'_succ, List.map_cons, rowsToPairs, ih (r + 1), List.map_cons]
      rfl

theorem denseRows_neg (R : List Vec3) (c : ℚ) (hc : c < 0) :
    denseRows R.length (adjDense R c) = (List.range R.length).map (fun i => [i]) := by
  unfold denseRows
  apply List.map_congr_left
  intro i hi
  have hfun : (fun j => adjDense R c i j) = fun j => decide (i = j) := by
    funext j
    exact adjDense_neg R c hc i j
  rw [hfun, filter_range_eq_pt i R.length (List.mem_range.1 hi)]

theorem adjDense_zero_iff (R : List Vec3) (i j : ℕ) :
    adjDense R 0 i j = true ↔ (¬ i = j ∧ R.getD i 0 = R.getD j 0) := by
  have hd : ∀ p q : Vec3, (distLE p q 0 = true) ↔ p = q := by
    intro p q
    unfold distLE
    rw [decide_eq_true_iff]
    constructor
    · intro h
      exact (dist2_eq_zero_iff _ _).1 (le_antisymm (by simpa using h.2) (dist2_nonneg _ _))
    · intro h
      refine ⟨le_refl 0, ?_⟩
      rw [h, dist2_self]
      norm_num
  unfold adjDense
  by_cases hij : i = j
  · rw [hij, decide_eq_true (rfl : j = j), (hd _ _).2 rfl]
    simp
  · rw [decide_eq_false hij, Bool.xor_false, hd]
    simp [hij]

/-- C8 (amended): with a negative cutoff the per-structure graph is exactly
one self-loop edge per atom (the identity-subtraction artifact); at cutoff 0
the edges are exactly the ordered pairs of distinct atoms with coincident
positions; and with a nonnegative cutoff a structure with at most one atom
yields no edge. -/
theorem c8_amended (R : List Vec3) (c : ℚ) :
    (c < 0 → structEdges R c = (List.range R.length).map (fun i => (i, i))) ∧
    (∀ pr : ℕ × ℕ, pr ∈ structEdges R 0 ↔
      pr.1 < R.length ∧ pr.2 < R.length ∧ ¬ pr.1 = pr.2 ∧
        R.getD pr.1 0 = R.getD pr.2 0) ∧
    (0 ≤ c → R.length ≤ 1 → structEdges R c = []) := by
  refine ⟨?_, ?_, ?_⟩
  · intro hc
    rw [structEdges_eq, denseRows_neg R c hc, List.map_map]
    have hcomp : ((fun (r : List ℕ) => r.map (fun j => ((true : Bool), j))) ∘ fun i => [i])
        = fun i => [((true : Bool), i)] := rfl
    rw [hcomp, List.range_eq_range']
    exact rowsToPairs_diag R.length 0
  · intro pr
    constructor
    · intro h
      rw [structEdges_eq] at h
      obtain ⟨ridx, hlt, e, he, htrue, hpr⟩ := mem_rowsToPairs h
      have hlt' : ridx < R.length := by simpa [denseRows] using hlt
      rw [getD_map _ _ _ [] [] (by simpa [denseRows] using hlt'), denseRows_getD hlt'] at he
      obtain ⟨j, hj, hje⟩ := List.mem_map.1 he
      have hjf := List.mem_filter.1 hj
      have hjn : j < R.length := List.mem_range.1 hjf.1
      have hadj := (adjDense_zero_iff R ridx j).1 hjf.2
      have hje2 : e.2 = j := by rw [← hje]
      rw [hpr, Nat.zero_add, hje2]
      exact ⟨hlt', hjn, hadj.1, hadj.2⟩
    · rintro ⟨h1, h2, hne, hco⟩
      rw [structEdges_eq]
      have hadj : adjDense R 0 pr.1 pr.2 = true := (adjDense_zero_iff R pr.1 pr.2).2 ⟨hne, hco⟩
      have hmem : ((true : Bool), pr.2) ∈ ((denseRows R.length (adjDense R 0)).map
          (fun r => r.map (fun j => ((true : Bool), j)))).getD pr.1 [] := by
        rw [getD_map _ _ _ [] [] (by simpa [denseRows] using h1), denseRows_getD h1]
        exact List.mem_map.2 ⟨pr.2, List.mem_filter.2 ⟨List.mem_range.2 h2, hadj⟩, rfl⟩
      have hfin := @rowsToPairs_mem_of _ 0 pr.1 ((true : Bool), pr.2)
        (by simpa [denseRows] using h1) hmem rfl
      simpa using hfin
  · intro hc hlen
    rw [structEdges_eq]
    cases R with
    | nil => rfl
    | cons p R' =>
        cases R' with
        | nil =>
            have hA : adjDense [p] c 0 0 = false := adjDense_diag_false [p] c hc 0
            have hdr : denseRows ([p] : List Vec3).length (adjDense [p] c) = [[]] := by
              unfold denseRows
              have h1 : List.range ([p] : List Vec3).length = [0] := rfl
              rw [h1, List.map_cons, List.map_nil, List.filter_cons,
                if_neg (by simp [hA]), List.filter_nil]
            rw [hdr]
            rfl
        | cons q rest =>
            exfalso
            simp only [List.length_cons] at hlen
            omega

/-- Witness for `c8_amended`: one atom at negative cutoff (a self-loop), two
coincident atoms at cutoff 0 (an edge between distinct atoms), one atom at
cutoff 1 (no edge). -/
theorem c8_amended_witness :
    structEdges [((0 : ℚ), 0, 0)] (-1) = [(0, 0)] ∧
    ((0, 1) : ℕ × ℕ) ∈ structEdges [((0 : ℚ), 0, 0), ((0 : ℚ), 0, 0)] 0 ∧
    structEdges [((0 : ℚ), 0, 0)] 1 = [] := by
  refine ⟨?_, ?_, ?_⟩
  · rw [(c8_amended [((0 : ℚ), 0, 0)] (-1)).1 (by decide)]
    rfl
  · exact ((c8_amended [((0 : ℚ), 0, 0), ((0 : ℚ), 0, 0)] 0).2.1 (0, 1)).2
      ⟨by decide, by decide, by decide, by decide⟩
  · exact (c8_amended [((0 : ℚ), 0, 0)] 1).2.2 (by decide) (by decide)

/-- C9 (counterexample): with rand_cov = 1 both `d9a` and `d9b` are draws the
ambient RNG can produce, and the two corresponding invocations on the same
input differ (already in the perturbed `R`), so assembly is not a
deterministic function of (input, cutoff, rand_cov, rotate). -/
theorem c9_counterexample :
    possibleDeltas 1 [2] d9a ∧ possibleDeltas 1 [2] d9b ∧
    AtomsCollate.call 5 false [] d9a [pairEx] ≠
      AtomsCollate.call 5 false [] d9b [pairEx] := by
  unfold possibleDeltas
  exact ⟨⟨by decide, by decide, by decide⟩, ⟨by decide, by decide, by decide⟩, by decide⟩

/-- C10 (counterexample): the input record `chainEx` has no `R_orig` field,
but after the call the (mutated) example list returned by the call carries
`R_orig` on it: a field was added to the input record. -/
theorem c10_counterexample :
    chainEx.R_orig = none ∧
    (chainCall.map (fun p => p.1.map (fun e => e.R_orig))).getD [] =
      [some [0, 0, 0, 1, 0, 0, 2, 0, 0]] := by decide

/-! ## Block-diagonal merge: helpers for claim C5 -/

theorem catRows_length {α : Type} (rss : List (List (List (α × ℕ)))) :
    ∀ off, (catRows off rss).length = (rss.map List.length).sum := by
  induction rss with
  | nil => intro off; rfl
  | cons rs rest ih =>
      intro off
      rw [catRows, List.length_append, List.length_map, ih (off + rs.length),
        List.map_cons, List.sum_cons]

theorem catRows_col_lt {α : Type} (rss : List (List (List (α × ℕ))))
    (hb : ∀ rs ∈ rss, ∀ row ∈ rs, ∀ e ∈ row, e.2 < rs.length) :
    ∀ off, ∀ row ∈ catRows off rss, ∀ e ∈ row, e.2 < off + (rss.map List.length).sum := by
  induction rss with
  | nil => intro off row hrow; cases hrow
  | cons rs rest ih =>
      intro off row hrow e he
      rw [catRows] at hrow
      rcases List.mem_append.1 hrow with h1 | h2
      · obtain ⟨row0, hrow0, hroweq⟩ := List.mem_map.1 h1
        rw [← hroweq] at he
        obtain ⟨e0, he0, heeq⟩ := List.mem_map.1 he
        have hcol := hb rs (by simp) row0 hrow0 e0 he0
        rw [← heeq]
        simp only [List.map_cons, List.sum_cons]
        omega
      · have := ih (fun rs' h' => hb rs' (by simp [h'])) (off + rs.length) row h2 e he
        simp only [List.map_cons, List.sum_cons]
        omega

theorem foldr_max_lt (n : ℕ) (l : List ℕ) (h0 : 0 < n) (hall : ∀ x ∈ l, x < n) :
    l.foldr max 0 < n := by
  induction l with
  | nil => simpa using h0
  | cons a t ih =>
      rw [List.foldr_cons]
      exact Nat.max_lt.2 ⟨hall a (by simp), ih (fun x hx => hall x (by simp [hx]))⟩

/-- C5 (amended): on the per-structure matrices the merge either fails
outright (when no block stores an entry) or returns the block-diagonal data,
indices and indptr of the reference construction with row count the sum of
the block sizes; the inferred column count, however, is only bounded by the
reference shape and in general undershoots it. -/
theorem c5_amended (Rbs : List (List Vec3)) (c : ℚ) (hne : ¬ Rbs = []) :
    (bmatIndices 0 (structAdjs Rbs c) = [] → _bmat_fast (structAdjs Rbs c) = none) ∧
    (¬ bmatIndices 0 (structAdjs Rbs c) = [] →
      ∃ m, _bmat_fast (structAdjs Rbs c) = some m ∧
        m.data = (blockDiagRef (structAdjs Rbs c)).data ∧
        m.indices = (blockDiagRef (structAdjs Rbs c)).indices ∧
        m.indptr = (blockDiagRef (structAdjs Rbs c)).indptr ∧
        m.nrows = (Rbs.map List.length).sum ∧
        (blockDiagRef (structAdjs Rbs c)).nrows = (Rbs.map List.length).sum ∧
        m.ncols ≤ (blockDiagRef (structAdjs Rbs c)).ncols) := by
  have hlist : structAdjs Rbs c
      = (Rbs.map (fun Rb => (denseRows Rb.length (adjDense Rb c)).map
          (fun r => r.map (fun j => ((true : Bool), j))))).map
          (fun rs => csrFromRows rs rs.length) := by
    unfold structAdjs
    rw [List.map_map]
    apply List.map_congr_left
    intro Rb _
    show csrOfDenseB Rb.length (adjDense Rb c) = _
    unfold csrOfDenseB
    congr 1
    simp [denseRows]
  constructor
  · intro h
    unfold _bmat_fast
    rw [h]
  · intro hx
    have hne' : ¬ Rbs.map (fun Rb => (denseRows Rb.length (adjDense Rb c)).map
        (fun r => r.map (fun j => ((true : Bool), j)))) = [] := by
      simpa using hne
    rw [hlist] at hx
    have heq := bmat_fast_eq
      (Rbs.map (fun Rb => (denseRows Rb.length (adjDense Rb c)).map
        (fun r => r.map (fun j => ((true : Bool), j)))))
      (fun rs => rs.length) hne' hx
    have hrows : (structAdjs Rbs c).map Csr.toRows
        = Rbs.map (fun Rb => (denseRows Rb.length (adjDense Rb c)).map
            (fun r => r.map (fun j => ((true : Bool), j)))) := by
      rw [hlist, List.map_map]
      have hcn : (Csr.toRows ∘ fun rs => csrFromRows rs rs.length)
          = (id : List (List (Bool × ℕ)) → List (List (Bool × ℕ))) := by
        funext rs
        exact toRows_csrFromRows rs rs.length
      rw [hcn, List.map_id]
    have hlens : (Rbs.map (fun Rb => (denseRows Rb.length (adjDense Rb c)).map
        (fun r => r.map (fun j => ((true : Bool), j))))).map List.length
          = Rbs.map List.length := by
      rw [List.map_map]
      apply List.map_congr_left
      intro Rb _
      simp [denseRows]
    have hb : ∀ rs ∈ Rbs.map (fun Rb => (denseRows Rb.length (adjDense Rb c)).map
        (fun r => r.map (fun j => ((true : Bool), j)))),
        ∀ row ∈ rs, ∀ e ∈ row, e.2 < rs.length := by
      intro rs hrs row hrow e he
      obtain ⟨Rb, _, hrseq⟩ := List.mem_map.1 hrs
      have hrlen : rs.length = Rb.length := by rw [← hrseq]; simp [denseRows]
      rw [← hrseq] at hrow
      obtain ⟨r0, hr0, hroweq⟩ := List.mem_map.1 hrow
      rw [← hroweq] at he
      obtain ⟨j, hj, heeq⟩ := List.mem_map.1 he
      unfold denseRows at hr0
      obtain ⟨i, _, hieq⟩ := List.mem_map.1 hr0
      rw [← hieq] at hj
      have hjn : j < Rb.length := List.mem_range.1 (List.mem_filter.1 hj).1
      rw [← heeq, hrlen]
      exact hjn
    have hall : ∀ x ∈ bmatIndices 0
        ((Rbs.map (fun Rb => (denseRows Rb.length (adjDense Rb c)).map
          (fun r => r.map (fun j => ((true : Bool), j))))).map
          (fun rs => csrFromRows rs rs.length)),
        x < (Rbs.map List.length).sum := by
      intro x hxm
      rw [bmatIndices_eq _ (fun rs => rs.length) 0] at hxm
      obtain ⟨l, hl, hxl⟩ := List.mem_flatten.1 hxm
      obtain ⟨row, hrow, hleq⟩ := List.mem_map.1 hl
      rw [← hleq] at hxl
      obtain ⟨e, he, hxe⟩ := List.mem_map.1 hxl
      have hlt := catRows_col_lt _ hb 0 row hrow e he
      rw [← hlens, ← hxe]
      omega
    refine ⟨⟨_, _, _, _⟩, by rw [hlist]; exact heq, ?_, ?_, ?_, ?_, ?_, ?_⟩
    · show (csrFromRows (catRows 0 _) 0).data = (blockDiagRef (structAdjs Rbs c)).data
      unfold blockDiagRef
      rw [hrows]
      rfl
    · show (csrFromRows (catRows 0 _) 0).indices = (blockDiagRef (structAdjs Rbs c)).indices
      unfold blockDiagRef
      rw [hrows]
      rfl
    · show (csrFromRows (catRows 0 _) 0).indptr = (blockDiagRef (structAdjs Rbs c)).indptr
      unfold blockDiagRef
      rw [hrows]
      rfl
    · show (csrFromRows (catRows 0 _) 0).nrows = _
      rw [nrows_csrFromRows, catRows_length _ 0, hlens]
    · unfold blockDiagRef
      rw [hrows, nrows_csrFromRows, catRows_length _ 0, hlens]
    · have h0 : 0 < (Rbs.map List.length).sum := by
        obtain ⟨x, hxm⟩ := List.exists_mem_of_ne_nil _ hx
        have := hall x hxm
        omega
      have hmax := foldr_max_lt _ _ h0 hall
      have hncols : (blockDiagRef (structAdjs Rbs c)).ncols = (Rbs.map List.length).sum := by
        show ((structAdjs Rbs c).map Csr.nrows).sum = _
        rw [hlist, List.map_map]
        have hcn : (Csr.nrows ∘ fun rs => csrFromRows rs rs.length)
            = (List.length : List (List (Bool × ℕ)) → ℕ) := by
          funext rs
          exact nrows_csrFromRows rs rs.length
        rw [hcn]
        exact congrArg List.sum hlens
      show (bmatIndices 0 _).foldr max 0 + 1 ≤ (blockDiagRef (structAdjs Rbs c)).ncols
      rw [hncols]
      exact Nat.succ_le_of_lt hmax

/-- Witness for `c5_amended`: a two-atom block with both edges followed by an
edgeless one-atom block. -/
theorem c5_amended_witness :
    ¬ bmatIndices 0 (structAdjs [[((0 : ℚ), 0, 0), ((1 : ℚ), 0, 0)], [((5 : ℚ), 5, 5)]]
        (3 / 2)) = [] ∧
    ∃ m, _bmat_fast (structAdjs [[((0 : ℚ), 0, 0), ((1 : ℚ), 0, 0)], [((5 : ℚ), 5, 5)]]
        (3 / 2)) = some m ∧
      m.data = (blockDiagRef (structAdjs [[((0 : ℚ), 0, 0), ((1 : ℚ), 0, 0)],
        [((5 : ℚ), 5, 5)]] (3 / 2))).data ∧
      m.indices = (blockDiagRef (structAdjs [[((0 : ℚ), 0, 0), ((1 : ℚ), 0, 0)],
        [((5 : ℚ), 5, 5)]] (3 / 2))).indices ∧
      m.indptr = (blockDiagRef (structAdjs [[((0 : ℚ), 0, 0), ((1 : ℚ), 0, 0)],
        [((5 : ℚ), 5, 5)]] (3 / 2))).indptr ∧
      m.nrows = (([[((0 : ℚ), 0, 0), ((1 : ℚ), 0, 0)], [((5 : ℚ), 5, 5)]] :
        List (List Vec3)).map List.length).sum ∧
      (blockDiagRef (structAdjs [[((0 : ℚ), 0, 0), ((1 : ℚ), 0, 0)],
        [((5 : ℚ), 5, 5)]] (3 / 2))).nrows = (([[((0 : ℚ), 0, 0), ((1 : ℚ), 0, 0)],
        [((5 : ℚ), 5, 5)]] : List (List Vec3)).map List.length).sum ∧
      m.ncols ≤ (blockDiagRef (structAdjs [[((0 : ℚ), 0, 0), ((1 : ℚ), 0, 0)],
        [((5 : ℚ), 5, 5)]] (3 / 2))).ncols :=
  ⟨by decide, (c5_amended [[((0 : ℚ), 0, 0), ((1 : ℚ), 0, 0)], [((5 : ℚ), 5, 5)]]
    (3 / 2) (by decide)).2 (by decide)⟩

/-! ## Determinism at zero covariance: helpers for claim C9 -/

theorem mapM_option_congr {α β : Type} (f g : α → Option β) :
    ∀ l : List α, (∀ a ∈ l, f a = g a) → l.mapM f = l.mapM g := by
  intro l
  induction l with
  | nil => intro h; rfl
  | cons a t ih =>
      intro h
      rw [List.mapM_cons, List.mapM_cons, h a (by simp),
        ih (fun x hx => h x (by simp [hx]))]

theorem augmentExample_false (M M' : Mat3) (delta : List Vec3) (e : Example) :
    augmentExample false M delta e = augmentExample false M' delta e := rfl

theorem possibleDeltas_zero_eq (ns : List ℕ) (d : List (List Vec3))
    (hd : possibleDeltas 0 ns d) :
    d = ns.map (fun n => List.replicate n (0 : Vec3)) := by
  obtain ⟨hlen, hlens, hzero⟩ := hd
  apply List.ext_getElem (by simp [hlen])
  intro i h1 h2
  rw [List.getElem_map, List.eq_replicate_iff]
  constructor
  · have hi := hlens i (by omega)
    rw [List.getD_eq_getElem _ _ h1] at hi
    rw [hi, List.getD_eq_getElem _ _ (by simpa using h2)]
  · intro v hv
    exact hzero rfl _ (List.getElem_mem h1) v hv

/-- C9 (amended): with rand_cov = 0 the only possible perturbation draw is
identically zero and with rotation off the rotation draw is never read, so
two invocations on identical input agree whatever the ambient RNG produced. -/
theorem c9_amended (cutoff : ℚ) (rotDraws rotDraws' : List Mat3)
    (d1 d2 : List (List Vec3)) (examples : List Example)
    (h1 : possibleDeltas 0 (examples.map natoms) d1)
    (h2 : possibleDeltas 0 (examples.map natoms) d2) :
    AtomsCollate.call cutoff false rotDraws d1 examples
      = AtomsCollate.call cutoff false rotDraws' d2 examples := by
  have hd12 : d1 = d2 := by
    rw [possibleDeltas_zero_eq _ _ h1, possibleDeltas_zero_eq _ _ h2]
  subst hd12
  cases examples with
  | nil => rfl
  | cons e0 rest =>
      unfold AtomsCollate.call
      have hmapM : (e0 :: rest).enum.mapM (fun be =>
          augmentExample false (rotDraws.getD be.1 idMat3) (d1.getD be.1 []) be.2)
        = (e0 :: rest).enum.mapM (fun be =>
          augmentExample false (rotDraws'.getD be.1 idMat3) (d1.getD be.1 []) be.2) :=
        mapM_option_congr _ _ _ (fun be _ => augmentExample_false _ _ _ _)
      rw [hmapM]

/-- Witness for `c9_amended`: the two-atom structure with the zero draw under
two different rotation-draw lists. -/
theorem c9_amended_witness :
    possibleDeltas 0 ([pairEx].map natoms) [[(0, 0, 0), (0, 0, 0)]] ∧
    AtomsCollate.call 5 false [] [[(0, 0, 0), (0, 0, 0)]] [pairEx]
      = AtomsCollate.call 5 false [idMat3] [[(0, 0, 0), (0, 0, 0)]] [pairEx] :=
  ⟨by unfold possibleDeltas; exact ⟨by decide, by decide, by decide⟩,
   c9_amended 5 [] [idMat3] [[(0, 0, 0), (0, 0, 0)]] [[(0, 0, 0), (0, 0, 0)]] [pairEx]
     (by unfold possibleDeltas; exact ⟨by decide, by decide, by decide⟩)
     (by unfold possibleDeltas; exact ⟨by decide, by decide, by decide⟩)⟩

/-! ## Input mutation: helpers for claim C10 -/

theorem mapM_option_getD {α β : Type} (f : α → Option β) (da : α) (db : β) :
    ∀ (l : List α) (l' : List β), l.mapM f = some l' →
      ∀ idx, idx < l.length → f (l.getD idx da) = some (l'.getD idx db) := by
  intro l
  induction l with
  | nil =>
      intro l' h idx hidx
      simp at hidx
  | cons a t ih =>
      intro l' h idx hidx
      rw [List.mapM_cons] at h
      obtain ⟨b1, hb1, h⟩ := Option.bind_eq_some.1 h
      obtain ⟨bs, hbs, h⟩ := Option.bind_eq_some.1 h
      simp only [pure, Option.some.injEq] at h
      match idx with
      | 0 =>
          rw [← h]
          simpa using hb1
      | idx' + 1 =>
          rw [← h, List.getD_cons_succ, List.getD_cons_succ]
          exact ih bs hbs idx' (by simpa using hidx)

theorem enum_getD_eq {α : Type} (l : List α) (idx : ℕ) (h : idx < l.length) (d : α) :
    l.enum.getD idx (0, d) = (idx, l.getD idx d) := by
  rw [List.getD_eq_getElem _ _ (by simpa using h), List.getD_eq_getElem _ _ h,
    List.getElem_enum]

theorem augmentExample_some (rotate : Bool) (M : Mat3) (delta : List Vec3)
    (e : Example) (res : Example × List Vec3 × List Vec3)
    (h : augmentExample rotate M delta e = some res) :
    res.1.Z = e.Z ∧ res.1.U0 = e.U0 ∧ res.1.R_orig.isSome = true := by
  unfold augmentExample at h
  simp only [bind, Option.bind_eq_some] at h
  obtain ⟨R0, hR0, h⟩ := h
  by_cases hlen : delta.length = (if rotate = true then _random_rotate R0 M else R0).length
  · rw [if_pos hlen] at h
    have h' := Option.some.inj h
    rw [← h']
    exact ⟨rfl, rfl, rfl⟩
  · rw [if_neg hlen] at h
    cases h

/-- C10 (amended): a successful call returns the input records mutated in
place: one output record per input, same `Z` and same label, but with
`R_orig` now set (and `R` rewritten to the augmented positions). -/
theorem c10_amended (cutoff : ℚ) (rotate : Bool) (rotDraws : List Mat3)
    (deltaDraws : List (List Vec3)) (examples : List Example)
    (ex' : List Example) (b : Batch)
    (h : AtomsCollate.call cutoff rotate rotDraws deltaDraws examples = some (ex', b)) :
    ex'.length = examples.length ∧
    ∀ idx, idx < examples.length →
      (ex'.getD idx emptyExample).Z = (examples.getD idx emptyExample).Z ∧
      (ex'.getD idx emptyExample).U0 = (examples.getD idx emptyExample).U0 ∧
      (ex'.getD idx emptyExample).R_orig.isSome = true := by
  unfold AtomsCollate.call at h
  cases examples with
  | nil => cases h
  | cons e0 rest =>
      simp only [bind, Option.bind_eq_some] at h
      obtain ⟨aug, haug, h⟩ := h
      obtain ⟨U0cat, hU0, h⟩ := h
      have hlen : aug.length = (e0 :: rest).length := by
        have := mapM_option_length _ _ _ haug
        simpa using this
      split at h
      · obtain ⟨bb, hbb, heq⟩ := Option.map_eq_some'.1 h
        have hex : aug.map (·.1) = ex' := congrArg Prod.fst heq
        constructor
        · rw [← hex, List.length_map, hlen]
        · intro idx hidx
          have hidx' : idx < (e0 :: rest).enum.length := by simpa using hidx
          have hstep := mapM_option_getD _ ((0 : ℕ), emptyExample)
            ((emptyExample, ([] : List Vec3), ([] : List Vec3))) _ _ haug idx hidx'
          rw [enum_getD_eq (e0 :: rest) idx hidx emptyExample] at hstep
          have hprops := augmentExample_some _ _ _ _ _ hstep
          have hgd : ex'.getD idx emptyExample
              = (aug.getD idx ((emptyExample, ([] : List Vec3), ([] : List Vec3)))).1 := by
            rw [← hex]
            exact getD_map aug (·.1) idx
              ((emptyExample, ([] : List Vec3), ([] : List Vec3))) emptyExample
              (by rw [hlen]; simpa using hidx)
          rw [hgd]
          exact hprops
      · cases h

/-- Witness for `c10_amended` on the chain call: the output record matches
the input except that `R_orig` has been filled in. -/
theorem c10_amended_witness :
    AtomsCollate.call (3 / 2) false [] [zeros3] [chainEx] = some ([c10ex], chainBatch) ∧
    ([c10ex] : List Example).length = ([chainEx] : List Example).length ∧
    ∀ idx, idx < ([chainEx] : List Example).length →
      (([c10ex] : List Example).getD idx emptyExample).Z
          = (([chainEx] : List Example).getD idx emptyExample).Z ∧
      (([c10ex] : List Example).getD idx emptyExample).U0
          = (([chainEx] : List Example).getD idx emptyExample).U0 ∧
      (([c10ex] : List Example).getD idx emptyExample).R_orig.isSome = true :=
  ⟨by decide, c10_amended (3 / 2) false [] [zeros3] [chainEx] [c10ex] chainBatch (by decide)⟩

/-! ## Prepending an empty structure: helpers for claim C7 -/

theorem repNat_succ (xs ns : List ℕ) :
    repNat (xs.map (· + 1)) ns = (repNat xs ns).map (· + 1) := by
  unfold repNat
  induction xs generalizing ns with
  | nil => simp
  | cons x xt ih =>
      cases ns with
      | nil => simp
      | cons n nt =>
          simp only [List.map_cons, List.zip_cons_cons, List.flatMap_cons, List.map_append]
          rw [ih nt, List.map_replicate]

theorem repNat_zero_cons (Ns : List ℕ) :
    repNat (List.range (Ns.length + 1)) ((0 : ℕ) :: Ns)
      = (repNat (List.range Ns.length) Ns).map (· + 1) := by
  rw [List.range_succ_eq_map]
  have hs : (List.range Ns.length).map Nat.succ = (List.range Ns.length).map (· + 1) :=
    List.map_congr_left (fun a _ => rfl)
  rw [hs]
  show repNat ((0 : ℕ) :: (List.range Ns.length).map (· + 1)) ((0 : ℕ) :: Ns) = _
  unfold repNat
  rw [List.zip_cons_cons, List.flatMap_cons, List.replicate_zero, List.nil_append]
  exact repNat_succ (List.range Ns.length) Ns

theorem bmat_fast_cons_empty (m0 m1 : Csr Bool) (rest : List (Csr Bool))
    (hd : m0.data = []) (hi : m0.indices = []) (hp : m0.indptr = [0])
    (t : List ℕ) (ht : m1.indptr = 0 :: t) :
    _bmat_fast (m0 :: m1 :: rest) = _bmat_fast (m1 :: rest) := by
  have hnr : m0.nrows = 0 := by rw [Csr.nrows, hp]; rfl
  have hnz : m0.nnz = 0 := by rw [Csr.nnz, hp]; rfl
  have hbi : bmatIndices 0 (m0 :: m1 :: rest) = bmatIndices 0 (m1 :: rest) := by
    rw [bmatIndices, hi, hnr]
    simp
  have hfalse : ∀ off, bmatIndptr false off (m1 :: rest)
      = t.map (· + off) ++ bmatIndptr false (off + m1.nnz) rest := by
    intro off
    rw [bmatIndptr, ht]
    rfl
  have htrue1 : bmatIndptr true 0 (m1 :: rest)
      = 0 :: (t.map (· + 0) ++ bmatIndptr false (0 + m1.nnz) rest) := by
    rw [bmatIndptr, ht]
    rfl
  have htrue0 : bmatIndptr true 0 (m0 :: m1 :: rest)
      = 0 :: (t.map (· + 0) ++ bmatIndptr false (0 + m1.nnz) rest) := by
    rw [bmatIndptr, hnz, hp, hfalse (0 + 0)]
    rfl
  unfold _bmat_fast
  rw [hbi]
  cases hcase : bmatIndices 0 (m1 :: rest) with
  | nil => rfl
  | cons x xs =>
      rw [List.map_cons, hd, List.flatten_cons, List.nil_append, htrue0, htrue1]

theorem collateCore_cons (m0 : Csr Bool) (adjs : List (Csr Bool))
    (hfast : _bmat_fast (m0 :: adjs) = _bmat_fast adjs)
    (Rcat Rorigcat : List Vec3) (Zcat : List ℕ) (U0cat U0cat' : Option (List ℚ))
    (Ns : List ℕ) :
    collateCore (m0 :: adjs) Rcat Rorigcat Zcat U0cat' ((0 : ℕ) :: Ns)
      = (collateCore adjs Rcat Rorigcat Zcat U0cat Ns).map
          (fun b => { b with batch_seg := b.batch_seg.map (· + 1), U0 := U0cat' }) := by
  unfold collateCore
  rw [hfast, Option.map_map]
  apply congrArg (fun f => Option.map f (_bmat_fast adjs))
  funext adj
  have hseg : repNat (List.range ((0 : ℕ) :: Ns).length) ((0 : ℕ) :: Ns)
      = (repNat (List.range Ns.length) Ns).map (· + 1) := by
    show repNat (List.range (Ns.length + 1)) ((0 : ℕ) :: Ns) = _
    exact repNat_zero_cons Ns
  rw [hseg]
  rfl

theorem mapM_enumFrom_shift (rotate : Bool) (rotDraws : List Mat3)
    (deltaDraws : List (List Vec3)) :
    ∀ (l : List Example) (n : ℕ),
      (l.enumFrom (n + 1)).mapM (fun be =>
        augmentExample rotate ((idMat3 :: rotDraws).getD be.1 idMat3)
          (([] :: deltaDraws).getD be.1 []) be.2)
      = (l.enumFrom n).mapM (fun be =>
        augmentExample rotate (rotDraws.getD be.1 idMat3)
          (deltaDraws.getD be.1 []) be.2) := by
  intro l
  induction l with
  | nil => intro n; rfl
  | cons a tl ih =>
      intro n
      rw [List.enumFrom_cons, List.enumFrom_cons, List.mapM_cons, List.mapM_cons, ih (n + 1)]
      rfl

theorem augmentExample_empty (rotate : Bool) :
    augmentExample rotate idMat3 [] emptyEx
      = some (({ R := [], Z := [], R_orig := some [], U0 := none } : Example),
          ([] : List Vec3), ([] : List Vec3)) := by
  cases rotate <;> rfl

set_option maxHeartbeats 1600000 in
/-- C7 (amended): a zero-atom structure is never rejected: prepending one to
a batch that assembles keeps the call succeeding, the empty structure
contributing no atoms, edges or triplets and only shifting the segment
labels of the later structures by one (it is itself returned mutated, with
an empty `R_orig` added). -/
theorem c7_amended (cutoff : ℚ) (rotate : Bool) (rotDraws : List Mat3)
    (deltaDraws : List (List Vec3)) (examples : List Example)
    (ex' : List Example) (b : Batch)
    (h : AtomsCollate.call cutoff rotate rotDraws deltaDraws examples = some (ex', b)) :
    ∃ b', AtomsCollate.call cutoff rotate (idMat3 :: rotDraws) ([] :: deltaDraws)
        (emptyEx :: examples)
        = some (({ R := [], Z := [], R_orig := some [], U0 := none } : Example) :: ex', b') ∧
      b'.batch_seg = b.batch_seg.map (· + 1) ∧
      b'.R = b.R ∧ b'.R_orig = b.R_orig ∧ b'.Z = b.Z ∧
      b'.idnb_i = b.idnb_i ∧ b'.idnb_j = b.idnb_j ∧
      b'.id3dnb_i = b.id3dnb_i ∧ b'.id3dnb_j = b.id3dnb_j ∧
      b'.id3dnb_k = b.id3dnb_k ∧
      b'.id_expand_kj = b.id_expand_kj ∧ b'.id_reduce_ji = b.id_reduce_ji := by
  unfold AtomsCollate.call at h
  cases examples with
  | nil => cases h
  | cons e0 rest =>
      simp only [bind, Option.bind_eq_some] at h
      obtain ⟨aug, haug, h⟩ := h
      obtain ⟨U0cat, hU0, h⟩ := h
      split at h
      · rename_i hcheck
        obtain ⟨bb, hbb, heq⟩ := Option.map_eq_some'.1 h
        have hex : aug.map (·.1) = ex' := congrArg Prod.fst heq
        have hb : bb = b := congrArg Prod.snd heq
        have haugne : aug ≠ [] := by
          intro hnil
          have hlen := mapM_option_length _ _ _ haug
          rw [hnil] at hlen
          simp at hlen
        cases aug with
        | nil => exact absurd rfl haugne
        | cons a1 arest =>
            refine ⟨{ bb with batch_seg := bb.batch_seg.map (· + 1), U0 := none },
              ?_, by rw [← hb], by rw [← hb], by rw [← hb], by rw [← hb], by rw [← hb],
              by rw [← hb], by rw [← hb], by rw [← hb], by rw [← hb], by rw [← hb],
              by rw [← hb]⟩
            unfold AtomsCollate.call
            have henum : (emptyEx :: e0 :: rest).enum
                = ((0 : ℕ), emptyEx) :: (e0 :: rest).enumFrom (0 + 1) := rfl
            rw [henum, List.mapM_cons, mapM_enumFrom_shift rotate rotDraws deltaDraws
              (e0 :: rest) 0,
              show (e0 :: rest).enumFrom 0 = (e0 :: rest).enum from rfl, haug]
            have hhead : augmentExample rotate
                ((idMat3 :: rotDraws).getD ((0 : ℕ), emptyEx).1 idMat3)
                (([] :: deltaDraws).getD ((0 : ℕ), emptyEx).1 []) ((0 : ℕ), emptyEx).2
              = some (({ R := [], Z := [], R_orig := some [], U0 := none } : Example),
                  ([] : List Vec3), ([] : List Vec3)) := augmentExample_empty rotate
            rw [hhead]
            show (if (((List.map (fun x => x.2.2) (a1 :: arest)).zip
                    (List.map (fun x => x.1) (a1 :: arest))).all
                    (fun p => decide (p.1.length = p.2.Z.length))) = true
                then Option.map (fun bq =>
                    (({ R := [], Z := [], R_orig := some [], U0 := none } : Example)
                      :: List.map (fun x => x.1) (a1 :: arest), bq))
                  (collateCore (csrOfDenseB 0 (adjDense [] cutoff)
                      :: List.map (fun Rb => csrOfDenseB Rb.length (adjDense Rb cutoff))
                        (List.map (fun x => x.2.2) (a1 :: arest)))
                    (List.map (fun x => x.2.2) (a1 :: arest)).flatten
                    (List.map (fun x => x.2.1) (a1 :: arest)).flatten
                    (List.map (fun e => e.Z) (List.map (fun x => x.1) (a1 :: arest))).flatten
                    none
                    ((0 : ℕ) :: List.map (fun e => e.Z.length)
                      (List.map (fun x => x.1) (a1 :: arest))))
                else none)
              = some (({ R := [], Z := [], R_orig := some [], U0 := none } : Example) :: ex',
                  { bb with batch_seg := bb.batch_seg.map (· + 1), U0 := none })
            split
            · have hfast : _bmat_fast (csrOfDenseB 0 (adjDense [] cutoff)
                  :: ((a1 :: arest).map (·.2.2)).map
                    (fun Rb => csrOfDenseB Rb.length (adjDense Rb cutoff)))
                = _bmat_fast (((a1 :: arest).map (·.2.2)).map
                    (fun Rb => csrOfDenseB Rb.length (adjDense Rb cutoff))) := by
                have hm1 : ∃ t, (csrOfDenseB a1.2.2.length (adjDense a1.2.2 cutoff)).indptr
                    = 0 :: t := ⟨_, scanl_add_head_tail _ 0⟩
                obtain ⟨t, ht⟩ := hm1
                show _bmat_fast (csrOfDenseB 0 (adjDense [] cutoff)
                    :: csrOfDenseB a1.2.2.length (adjDense a1.2.2 cutoff)
                    :: (arest.map (·.2.2)).map
                      (fun Rb => csrOfDenseB Rb.length (adjDense Rb cutoff)))
                  = _bmat_fast (csrOfDenseB a1.2.2.length (adjDense a1.2.2 cutoff)
                    :: (arest.map (·.2.2)).map
                      (fun Rb => csrOfDenseB Rb.length (adjDense Rb cutoff)))
                exact bmat_fast_cons_empty _ _ _ rfl rfl rfl t ht
              rw [collateCore_cons _ _ hfast _ _ _ U0cat none _, hbb,
                Option.map_some', Option.map_some', ← hex]
            · rename_i hfail
              exact absurd hcheck hfail
      · cases h

/-- Witness for `c7_amended`: prepending the zero-atom structure to the
chain batch. -/
theorem c7_amended_witness :
    AtomsCollate.call (3 / 2) false [] [zeros3] [chainEx] = some ([c10ex], chainBatch) ∧
    ∃ b', AtomsCollate.call (3 / 2) false (idMat3 :: []) ([] :: [zeros3])
        (emptyEx :: [chainEx])
        = some (({ R := [], Z := [], R_orig := some [], U0 := none } : Example)
            :: [c10ex], b') ∧
      b'.batch_seg = chainBatch.batch_seg.map (· + 1) ∧
      b'.R = chainBatch.R ∧ b'.R_orig = chainBatch.R_orig ∧ b'.Z = chainBatch.Z ∧
      b'.idnb_i = chainBatch.idnb_i ∧ b'.idnb_j = chainBatch.idnb_j ∧
      b'.id3dnb_i = chainBatch.id3dnb_i ∧ b'.id3dnb_j = chainBatch.id3dnb_j ∧
      b'.id3dnb_k = chainBatch.id3dnb_k ∧
      b'.id_expand_kj = chainBatch.id_expand_kj ∧
      b'.id_reduce_ji = chainBatch.id_reduce_ji :=
  ⟨by decide, c7_amended (3 / 2) false [] [zeros3] [chainEx] [c10ex] chainBatch (by decide)⟩

end DimenetLoader
